import Mathlib

/-! The added-line index and the correlator of `watchdogs.go`.

A shallow embedding of `src/watchdogs.go`:

* `watchdogs.AddedLines` builds, from the file diffs of a unified diff and a
  strip count, the table `PosToAddedLine` from (path, line number in the new
  file) to the added line found there;
* `watchdogs.PosToAddedLine.Get` queries that table;
* `watchdogs.Watchdogs.Run` looks every finding of the static-analysis tool up
  in the table and posts one comment per finding that is found.

Go strings are lists of characters, Go maps are finite partial functions, a
pointer to a record that is never mutated is the record itself and a `nil`
pointer result is `none`.  The host is one whose path separator is `/`.
-/

/-! # Definitions -/

/-- A Go `string` (also used for `[]byte`): a sequence of characters. -/
abbrev GoString := List Char

/-- A Go `map[K]V`, read through the comma-ok form `v, ok := m[k]`:
`none` stands for `ok == false`. -/
def GoMap (κ : Type) (ν : Type) : Type := κ → Option ν

namespace GoMap

/-- The map `make(map[K]V)`: no key is present. -/
def empty {κ ν : Type} : GoMap κ ν := fun _ => none

/-- The assignment `m[k] = v`: the entry of `k` is replaced, every other entry kept. -/
def set {κ ν : Type} [DecidableEq κ] (m : GoMap κ ν) (k : κ) (v : ν) : GoMap κ ν :=
  fun k2 => if k2 = k then some v else m k2

end GoMap

/-- The slice expression `ps[low:]` of Go: a run-time panic (`none`) when `low`
exceeds the length, otherwise the elements from index `low` on. -/
def sliceFrom {α : Type} (ps : List α) (low : Nat) : Option (List α) :=
  if low ≤ ps.length then some (ps.drop low) else none

namespace strings

/-- Go `strings.Split(s, sep)` for a separator of one character: the pieces of
`s` between the occurrences of `sep`; always at least one piece. -/
def Split : GoString → Char → List GoString
  | [], _ => [[]]
  | c :: cs, sep =>
    if c = sep then [] :: Split cs sep
    else
      match Split cs sep with
      | [] => [[c]]
      | seg :: segs => (c :: seg) :: segs

/-- Go `strings.Join(elems, sep)`: the elements with `sep` between neighbours. -/
def Join : List GoString → GoString → GoString
  | [], _ => []
  | [e], _ => e
  | e :: e2 :: es, sep => e ++ sep ++ Join (e2 :: es) sep

end strings

namespace filepath

/-- Go `filepath.Separator` on the modelled host. -/
def Separator : Char := '/'

/-- Go `filepath.ToSlash`: every `Separator` becomes `/`; the separator is
already `/`, so the path is returned as it is. -/
def ToSlash (path : GoString) : GoString := path

/-- One step of the loop of `filepath.Clean`, on the path element `seg`, with
the elements written so far in `out` (last written first): an empty element and
`.` are dropped; `..` removes the last written element when that is not itself
`..`, is written when the path is not rooted and nothing can be removed, and
is dropped otherwise; any other element is written. -/
def cleanStep (rooted : Bool) (out : List GoString) (seg : GoString) : List GoString :=
  if seg = [] then out
  else if seg = ['.'] then out
  else if seg = ['.', '.'] then
    match out with
    | [] => if rooted then [] else [seg]
    | top :: rest =>
      if top = ['.', '.'] then (if rooted then out else seg :: out) else rest
  else seg :: out

/-- Go `filepath.Clean`: the shortest path name equivalent to `path` by lexical
processing.  The empty path gives `.`; a rooted path keeps its leading
separator; the result of an unrooted path that cleans to nothing is `.`. -/
def Clean (path : GoString) : GoString :=
  if path = [] then ['.']
  else
    let rooted : Bool := decide (path.head? = some Separator)
    let out := (strings.Split path Separator).foldl (cleanStep rooted) []
    let body := strings.Join out.reverse [Separator]
    if rooted then Separator :: body
    else if body = [] then ['.'] else body

/-- Go `filepath.Join(elem...)`: the elements from the first non-empty one on,
joined with the separator and cleaned; the empty string when every element is
empty. -/
def Join : List GoString → GoString
  | [] => []
  | e :: es => if e ≠ [] then Clean (strings.Join (e :: es) [Separator]) else Join es

end filepath

namespace diff

/-- Modelled from the spec: the type `diff.LineType` of the package `diff`, the
classification of a line of a hunk as context, added or removed. -/
inductive LineType where
  | LineUnchanged
  | LineAdded
  | LineDeleted
  deriving DecidableEq, Repr

/-- Modelled from the spec: the type `diff.Line` of the package `diff`, with its
classification (`Type` in the source), content, position in the diff text and
line number in the new file. -/
structure Line where
  Typ : LineType
  Content : GoString
  LnumDiff : Int
  LnumNew : Int
  deriving DecidableEq, Repr

/-- Modelled from the spec: the type `diff.Hunk` of the package `diff`, a
sequence of lines. -/
structure Hunk where
  Lines : List Line
  deriving DecidableEq, Repr

/-- Modelled from the spec: the type `diff.FileDiff` of the package `diff`, the
path of the new file and the hunks of one file. -/
structure FileDiff where
  PathNew : GoString
  Hunks : List Hunk
  deriving DecidableEq, Repr

end diff

namespace watchdogs

open diff

/-- The text of a Go `error`. -/
abbrev Error := GoString

/-- The struct `CheckResult`: one finding of a static-analysis tool. -/
structure CheckResult where
  Path : GoString
  Lnum : Int
  Col : Int
  Vcol : Int
  Message : GoString
  deriving DecidableEq, Repr

/-- The struct `Comment`. -/
structure Comment where
  Body : GoString
  Path : GoString
  Lnum : Int
  LnumDiff : Int
  deriving DecidableEq, Repr

/-- The struct `AddedLine`: an added line of a diff. -/
structure AddedLine where
  Path : GoString
  Lnum : Int
  LnumDiff : Int
  Content : GoString
  deriving DecidableEq, Repr

/-- The type `PosToAddedLine`, `map[string]map[int]*AddedLine`. -/
def PosToAddedLine : Type := GoMap GoString (GoMap Int AddedLine)

/-- The method `PosToAddedLine.Get`; `none` is the `nil` result. -/
def PosToAddedLine.Get (p : PosToAddedLine) (path : GoString) (lnum : Int) :
    Option AddedLine :=
  match p path with
  | none => none
  | some ltodiff =>
    match ltodiff lnum with
    | none => none
    | some diffline => some diffline

/-- Lines 107-113 of `AddedLines`: the path under which a file diff is
indexed.  `none` is the panic of an out-of-range `ps[strip:]`. -/
def strippedPath (pathNew : GoString) (strip : Nat) : Option GoString :=
  let ps := strings.Split (filepath.ToSlash pathNew) '/'
  if ps.length > strip then (sliceFrom ps strip).map filepath.Join
  else some pathNew

/-- The body of the loop over the lines of a hunk in `AddedLines`. -/
def addLine (path : GoString) (ltodiff : GoMap Int AddedLine) (line : Line) :
    GoMap Int AddedLine :=
  if line.Typ = LineType.LineAdded then
    ltodiff.set line.LnumNew
      { Path := path, Lnum := line.LnumNew, LnumDiff := line.LnumDiff,
        Content := line.Content }
  else ltodiff

/-- The loop over the lines of one hunk in `AddedLines`. -/
def addHunk (path : GoString) (ltodiff : GoMap Int AddedLine) (hunk : Hunk) :
    GoMap Int AddedLine :=
  hunk.Lines.foldl (addLine path) ltodiff

/-- The loop over the hunks of one file diff in `AddedLines`, from the fresh
map `ltodiff`. -/
def fileLines (path : GoString) (filediff : FileDiff) : GoMap Int AddedLine :=
  filediff.Hunks.foldl (addHunk path) GoMap.empty

/-- The loop over the file diffs in `AddedLines`, from the table `r`. -/
def addFiles (strip : Nat) : List FileDiff → PosToAddedLine → Option PosToAddedLine
  | [], r => some r
  | filediff :: rest, r =>
    match strippedPath filediff.PathNew strip with
    | none => none
    | some path => addFiles strip rest (GoMap.set r path (fileLines path filediff))

/-- The function `AddedLines`; `none` is a run-time panic.  The strip count
ranges over the natural numbers: it is constrained to be at least 0. -/
def AddedLines (filediffs : List FileDiff) (strip : Nat) : Option PosToAddedLine :=
  addFiles strip filediffs GoMap.empty

/-- A call made on the comment service. -/
inductive Call where
  | Diff
  | Post (c : Comment)
  deriving DecidableEq, Repr

/-- The interface `CommentService`.  What a call returns may depend on the
calls made before it, which are passed first, oldest first. -/
structure CommentService where
  Post : List Call → Comment → Option Error
  Diff : List Call → Except Error GoString

/-- The interface `Parser`: `Parse` on the content of the reader. -/
abbrev Parser := GoString → Except Error (List CheckResult)

/-- The struct `Watchdogs`.  The strip count is constrained to be at least 0. -/
structure Watchdogs where
  p : Parser
  c : CommentService
  strip : Nat

/-- What a run did: the calls made on the comment service, oldest first, and
the error returned (`none` for `nil`). -/
structure RunResult where
  calls : List Call
  err : Option Error
  deriving DecidableEq, Repr

/-- The loop over the results in `Run`, after the calls `calls`. -/
def postResults (c : CommentService) (addedlines : PosToAddedLine) :
    List CheckResult → List Call → RunResult
  | [], calls => { calls := calls, err := none }
  | result :: rest, calls =>
    match addedlines.Get result.Path result.Lnum with
    | none => postResults c addedlines rest calls
    | some addedline =>
      let comment : Comment :=
        { Body := result.Message, Path := addedline.Path, Lnum := addedline.Lnum,
          LnumDiff := addedline.LnumDiff }
      match c.Post calls comment with
      | some err => { calls := calls ++ [Call.Post comment], err := some err }
      | none => postResults c addedlines rest (calls ++ [Call.Post comment])

/-- The method `Watchdogs.Run` on the content `r` of the reader, with the
function `diff.ParseMultiFile` of the package `diff` as a parameter; `none` is
a run-time panic. -/
def Watchdogs.Run (ParseMultiFile : GoString → Except Error (List FileDiff))
    (w : Watchdogs) (r : GoString) : Option RunResult :=
  match w.p r with
  | Except.error err => some { calls := [], err := some ("parse error: ".toList ++ err) }
  | Except.ok results =>
    match w.c.Diff [] with
    | Except.error err =>
      some { calls := [Call.Diff], err := some ("fail to get diff: ".toList ++ err) }
    | Except.ok d =>
      match ParseMultiFile d with
      | Except.error err =>
        some { calls := [Call.Diff], err := some ("fail to parse diff: ".toList ++ err) }
      | Except.ok filediffs =>
        match AddedLines filediffs w.strip with
        | none => none
        | some addedlines => some (postResults w.c addedlines results [Call.Diff])

end watchdogs

namespace filepath

/-- A path element that `Clean` never drops by itself: not empty, not `.`, and
without a separator. -/
def okSeg (seg : GoString) : Prop := seg ≠ [] ∧ seg ≠ ['.'] ∧ '/' ∉ seg

/-- The shape of the elements written by `Clean`, last written first: every
element is kept by `Clean`, and below a `..` there are only `..`. -/
def okStack : List GoString → Prop
  | [] => True
  | top :: rest => okSeg top ∧ (top = ['.', '.'] → ∀ b ∈ rest, b = ['.', '.']) ∧ okStack rest

instance okSeg.decidable (seg : GoString) : Decidable (okSeg seg) := by
  unfold okSeg
  exact inferInstance

instance okStack.decidable : (out : List GoString) → Decidable (okStack out)
  | [] => isTrue trivial
  | top :: rest => by
    unfold okStack
    have := okStack.decidable rest
    exact inferInstance

end filepath

namespace watchdogs

open diff

/-- The lines of a file diff in the order `AddedLines` visits them. -/
def allLines (filediff : FileDiff) : List Line :=
  filediff.Hunks.flatMap (fun hunk => hunk.Lines)

/-- Whether a line is classified as added and has the new-file line number `lnum`. -/
def addedAt (lnum : Int) (line : Line) : Bool :=
  decide (line.Typ = LineType.LineAdded ∧ line.LnumNew = lnum)

/-- The record `AddedLines` builds from an added line. -/
def recordOf (path : GoString) (line : Line) : AddedLine :=
  { Path := path, Lnum := line.LnumNew, LnumDiff := line.LnumDiff, Content := line.Content }

/-- Whether a file diff is indexed under the path `path`. -/
def hasPath (strip : Nat) (path : GoString) (filediff : FileDiff) : Bool :=
  decide (strippedPath filediff.PathNew strip = some path)

/-- An added line with the given new-file line number, diff line number and content. -/
def added (lnumNew lnumDiff : Int) (content : String) : Line :=
  { Typ := LineType.LineAdded, Content := content.toList, LnumDiff := lnumDiff,
    LnumNew := lnumNew }

/-- A file diff whose only hunk adds two lines with the same new-file line number. -/
def twiceFile : FileDiff :=
  { PathNew := "f.go".toList, Hunks := [{ Lines := [added 10 5 "x", added 10 6 "y"] }] }

/-- The diff of `twiceFile` alone. -/
def twiceAdded : List FileDiff := [twiceFile]

/-- A file diff of `a/f.go` that adds line 10. -/
def leftFile : FileDiff :=
  { PathNew := "a/f.go".toList, Hunks := [{ Lines := [added 10 5 "x"] }] }

/-- A file diff of `b/f.go` that adds line 20. -/
def rightFile : FileDiff :=
  { PathNew := "b/f.go".toList, Hunks := [{ Lines := [added 20 7 "z"] }] }

/-- Two file diffs whose paths are the same once the first element is stripped. -/
def samePath : List FileDiff := [leftFile, rightFile]

/-- The comment `Run` builds for a finding found at the added line `addedline`. -/
def commentOf (result : CheckResult) (addedline : AddedLine) : Comment :=
  { Body := result.Message, Path := addedline.Path, Lnum := addedline.Lnum,
    LnumDiff := addedline.LnumDiff }

/-- The comments expected from a run: the findings found in the table, in the
order of the findings, each with the message of the finding and the path, line
number and diff line number of the added line found. -/
def matchedComments (addedlines : PosToAddedLine) (results : List CheckResult) : List Comment :=
  results.filterMap (fun result =>
    (addedlines.Get result.Path result.Lnum).map (commentOf result))

/-- A finding with the given path, line number and message. -/
def finding (path : String) (lnum : Int) (message : String) : CheckResult :=
  { Path := path.toList, Lnum := lnum, Col := 1, Vcol := 1, Message := message.toList }

/-- The file diff of `a/pkg/foo.go` with one hunk that adds line 10, the line
5 of the diff, with content `x := 1`. -/
def fooFile : FileDiff :=
  { PathNew := "a/pkg/foo.go".toList, Hunks := [{ Lines := [added 10 5 "x := 1"] }] }

/-- The table of `[fooFile]` with strip count 1. -/
def fooIndex : PosToAddedLine :=
  GoMap.set GoMap.empty "pkg/foo.go".toList (fileLines "pkg/foo.go".toList fooFile)

/-- A comment service whose diff is retrieved and whose sink never fails. -/
def quietService : CommentService :=
  { Post := fun _ _ => none, Diff := fun _ => Except.ok "diff".toList }

/-- A comment service whose sink fails on the call that comes after `n` earlier
calls on the service, the retrieval of the diff included. -/
def failingService (n : Nat) : CommentService :=
  { Post := fun calls _ => if calls.length = n then some "sink down".toList else none,
    Diff := fun _ => Except.ok "diff".toList }

/-- A comment service whose diff cannot be retrieved. -/
def noDiffService : CommentService :=
  { Post := fun _ _ => none, Diff := fun _ => Except.error "timeout".toList }

/-- A diff parser that returns `[fooFile]` for every input. -/
def parseFoo : GoString → Except Error (List FileDiff) := fun _ => Except.ok [fooFile]

/-- A diff parser that fails on every input. -/
def parseNothing : GoString → Except Error (List FileDiff) :=
  fun _ => Except.error "bad hunk".toList

/-- A `Watchdogs` whose parser returns the given findings. -/
def dog (results : List CheckResult) (c : CommentService) (strip : Nat) : Watchdogs :=
  { p := fun _ => Except.ok results, c := c, strip := strip }

/-- A `Watchdogs` whose parser fails. -/
def deafDog (c : CommentService) : Watchdogs :=
  { p := fun _ => Except.error "bad line".toList, c := c, strip := 1 }

/-- A file diff whose path has an element `.`, with one added line. -/
def dotFile : FileDiff :=
  { PathNew := "a/./b.go".toList, Hunks := [{ Lines := [added 3 7 "y"] }] }

/-- A file diff of `c/f.go` that adds line 10, with another content than `leftFile`. -/
def midFile : FileDiff :=
  { PathNew := "c/f.go".toList, Hunks := [{ Lines := [added 10 6 "y"] }] }

/-- Three file diffs indexed under `f.go` with strip count 1; the first two add
line 10, the last one adds line 20 only. -/
def threeFiles : List FileDiff := [leftFile, midFile, rightFile]

/-- A file diff whose path is rooted: its first element is empty. -/
def absFile : FileDiff :=
  { PathNew := "/abs/x.go".toList, Hunks := [{ Lines := [added 1 4 "package x"] }] }

end watchdogs

/-! # Theorems -/

/-! ## Maps and slices -/

@[simp] theorem GoMap.empty_apply {κ ν : Type} (k : κ) : (GoMap.empty : GoMap κ ν) k = none := rfl

@[simp] theorem GoMap.set_same {κ ν : Type} [DecidableEq κ] (m : GoMap κ ν) (k : κ) (v : ν) :
    GoMap.set m k v k = some v := by
  simp [GoMap.set]

@[simp] theorem GoMap.set_other {κ ν : Type} [DecidableEq κ] (m : GoMap κ ν) (k k2 : κ) (v : ν)
    (h : k2 ≠ k) : GoMap.set m k v k2 = m k2 := by
  simp [GoMap.set, h]

theorem GoMap.set_apply {κ ν : Type} [DecidableEq κ] (m : GoMap κ ν) (k k2 : κ) (v : ν) :
    GoMap.set m k v k2 = if k2 = k then some v else m k2 := rfl

theorem sliceFrom_of_le {α : Type} (ps : List α) (low : Nat) (h : low ≤ ps.length) :
    sliceFrom ps low = some (ps.drop low) := by
  simp [sliceFrom, h]

/-- The last element of a list that satisfies `q`, found from the end. -/
theorem find?_reverse_append_cons {α : Type} (q : α → Bool) (pre post : List α) (a : α)
    (ha : q a = true) (hpost : ∀ b ∈ post, q b = false) :
    (pre ++ a :: post).reverse.find? q = some a := by
  induction post using List.reverseRecOn with
  | nil => simp [ha]
  | append_singleton post b ih =>
    have hb : q b = false := hpost b (by simp)
    have : pre ++ a :: (post ++ [b]) = (pre ++ a :: post) ++ [b] := by simp
    rw [this, List.reverse_append]
    simp only [List.reverse_cons, List.reverse_nil, List.nil_append, List.singleton_append,
      List.find?_cons, hb]
    exact ih (fun c hc => hpost c (by simp [hc]))

/-! ## Splitting and joining -/

namespace strings

theorem Split_ne_nil (s : GoString) (sep : Char) : Split s sep ≠ [] := by
  cases s with
  | nil => simp [Split]
  | cons c cs =>
    unfold Split
    split_ifs
    · simp
    · cases Split cs sep <;> simp

theorem Split_length_pos (s : GoString) (sep : Char) : 0 < (Split s sep).length :=
  List.length_pos.mpr (Split_ne_nil s sep)

theorem Split_of_not_mem (s : GoString) (sep : Char) (h : sep ∉ s) : Split s sep = [s] := by
  induction s with
  | nil => rfl
  | cons c cs ih =>
    have hc : c ≠ sep := fun e => h (by simp [e])
    have hcs : sep ∉ cs := fun e => h (by simp [e])
    unfold Split
    rw [if_neg hc, ih hcs]

theorem Split_append_sep (e t : GoString) (sep : Char) (h : sep ∉ e) :
    Split (e ++ sep :: t) sep = e :: Split t sep := by
  induction e with
  | nil =>
    show Split (sep :: t) sep = [] :: Split t sep
    rw [Split, if_pos rfl]
  | cons c e ih =>
    have hc : c ≠ sep := fun x => h (by simp [x])
    have he : sep ∉ e := fun x => h (by simp [x])
    show Split (c :: (e ++ sep :: t)) sep = (c :: e) :: Split t sep
    rw [Split, if_neg hc, ih he]

theorem Split_Join (segs : List GoString) (sep : Char) (hne : segs ≠ [])
    (h : ∀ seg ∈ segs, sep ∉ seg) : Split (Join segs [sep]) sep = segs := by
  induction segs with
  | nil => exact absurd rfl hne
  | cons e es ih =>
    cases es with
    | nil => exact Split_of_not_mem e sep (h e (by simp))
    | cons e2 es =>
      have : Join (e :: e2 :: es) [sep] = e ++ sep :: Join (e2 :: es) [sep] := by
        simp [Join]
      rw [this, Split_append_sep e _ sep (h e (by simp)),
        ih (by simp) (fun seg hseg => h seg (by simp [hseg]))]

theorem not_mem_of_mem_Split (s : GoString) (sep : Char) :
    ∀ seg ∈ Split s sep, sep ∉ seg := by
  induction s with
  | nil =>
    intro seg hseg
    simp [Split] at hseg
    simp [hseg]
  | cons c cs ih =>
    intro seg hseg
    unfold Split at hseg
    by_cases hc : c = sep
    · rw [if_pos hc] at hseg
      rcases List.mem_cons.mp hseg with h | h
      · simp [h]
      · exact ih seg h
    · rw [if_neg hc] at hseg
      cases hs : Split cs sep with
      | nil => exact absurd hs (Split_ne_nil cs sep)
      | cons x xs =>
        rw [hs] at hseg ih
        rcases List.mem_cons.mp hseg with h | h
        · have hx := ih x (by simp)
          rw [h]
          intro hmem
          rcases List.mem_cons.mp hmem with h1 | h1
          · exact hc h1.symm
          · exact hx h1
        · exact ih seg (by simp [h])

theorem Join_Split (s : GoString) (sep : Char) : Join (Split s sep) [sep] = s := by
  induction s with
  | nil => rfl
  | cons c cs ih =>
    unfold Split
    by_cases hc : c = sep
    · rw [if_pos hc]
      cases hs : Split cs sep with
      | nil => exact absurd hs (Split_ne_nil cs sep)
      | cons x xs =>
        rw [hs] at ih
        simp [Join, ih, hc]
    · rw [if_neg hc]
      cases hs : Split cs sep with
      | nil => exact absurd hs (Split_ne_nil cs sep)
      | cons x xs =>
        rw [hs] at ih
        cases xs with
        | nil =>
          simp only [Join] at ih ⊢
          rw [ih]
        | cons y ys =>
          simp only [Join] at ih ⊢
          simp [← ih]

theorem Join_ne_nil (e : GoString) (es : List GoString) (sep : GoString) (he : e ≠ []) :
    Join (e :: es) sep ≠ [] := by
  cases es with
  | nil => simpa [Join] using he
  | cons e2 es => simp [Join, he]

theorem Join_head (e : GoString) (es : List GoString) (sep : GoString) (he : e ≠ []) :
    (Join (e :: es) sep).head? = e.head? := by
  cases es with
  | nil => simp [Join]
  | cons e2 es =>
    cases e with
    | nil => exact absurd rfl he
    | cons c cs => simp [Join]

end strings

/-! ## Cleaning -/

namespace filepath

theorem okStack_of_append (xs ys : List GoString) (h : okStack (xs ++ ys)) : okStack ys := by
  induction xs with
  | nil => exact h
  | cons x xs ih => exact ih h.2.2

theorem okStack_mem (out : List GoString) (h : okStack out) : ∀ seg ∈ out, okSeg seg := by
  induction out with
  | nil => intro seg hseg; simp at hseg
  | cons top rest ih =>
    intro seg hseg
    rcases List.mem_cons.mp hseg with e | e
    · rw [e]; exact h.1
    · exact ih h.2.2 seg e

theorem okSeg_dotdot : okSeg ['.', '.'] := by
  refine ⟨by simp, by simp, by decide⟩

theorem cleanStep_dotdot_nil (rooted : Bool) :
    cleanStep rooted [] ['.', '.'] = if rooted then [] else [['.', '.']] := by
  simp [cleanStep]

theorem cleanStep_dotdot_cons (rooted : Bool) (top : GoString) (rest : List GoString) :
    cleanStep rooted (top :: rest) ['.', '.'] =
      if top = ['.', '.'] then (if rooted then top :: rest else ['.', '.'] :: top :: rest)
      else rest := by
  simp [cleanStep]

/-- Every step of `Clean` keeps the shape of what is written. -/
theorem okStack_cleanStep (rooted : Bool) (out : List GoString) (seg : GoString)
    (hout : okStack out) (hseg : '/' ∉ seg) : okStack (cleanStep rooted out seg) := by
  by_cases h3 : seg = ['.', '.']
  · subst h3
    cases out with
    | nil =>
      rw [cleanStep_dotdot_nil]
      cases rooted
      · exact ⟨okSeg_dotdot, fun _ b hb => by simp at hb, trivial⟩
      · trivial
    | cons top rest =>
      rw [cleanStep_dotdot_cons]
      by_cases h4 : top = ['.', '.']
      · rw [if_pos h4]
        cases rooted
        · refine ⟨okSeg_dotdot, fun _ b hb => ?_, hout⟩
          rcases List.mem_cons.mp hb with e | e
          · rw [e]; exact h4
          · exact hout.2.1 h4 b e
        · exact hout
      · rw [if_neg h4]
        exact hout.2.2
  · unfold cleanStep
    by_cases h1 : seg = []
    · rw [if_pos h1]; exact hout
    · by_cases h2 : seg = ['.']
      · rw [if_neg h1, if_pos h2]; exact hout
      · rw [if_neg h1, if_neg h2, if_neg h3]
        exact ⟨⟨h1, h2, hseg⟩, fun e => absurd e h3, hout⟩

theorem okStack_foldl (rooted : Bool) (segs out : List GoString)
    (hout : okStack out) (hsegs : ∀ seg ∈ segs, '/' ∉ seg) :
    okStack (segs.foldl (cleanStep rooted) out) := by
  induction segs generalizing out with
  | nil => exact hout
  | cons seg segs ih =>
    exact ih _ (okStack_cleanStep rooted out seg hout (hsegs seg (by simp)))
      (fun s hs => hsegs s (by simp [hs]))

/-- Elements that already have the shape written by `Clean` are written as they are. -/
theorem foldl_cleanStep_of_okStack (segs out : List GoString)
    (h : okStack (segs.reverse ++ out)) :
    segs.foldl (cleanStep false) out = segs.reverse ++ out := by
  induction segs generalizing out with
  | nil => rfl
  | cons seg segs ih =>
    have h2 : okStack (segs.reverse ++ seg :: out) := by
      simpa using h
    have hso : okStack (seg :: out) := okStack_of_append _ _ h2
    have hstep : cleanStep false out seg = seg :: out := by
      unfold cleanStep
      rw [if_neg hso.1.1, if_neg hso.1.2.1]
      by_cases h3 : seg = ['.', '.']
      · rw [if_pos h3]
        cases out with
        | nil => simp [h3]
        | cons top rest =>
          have : top = ['.', '.'] := hso.2.1 h3 top (by simp)
          simp [this, h3]
      · rw [if_neg h3]
    rw [List.foldl_cons, hstep, ih _ h2]
    simp

/-- The result of `Clean` on the join of elements without a separator, the
first of which is not empty. -/
theorem Clean_Join (e : GoString) (es : List GoString) (he : e ≠ [])
    (h : ∀ seg ∈ e :: es, '/' ∉ seg) :
    Clean (strings.Join (e :: es) [Separator]) =
      if strings.Join ((e :: es).foldl (cleanStep false) []).reverse [Separator] = []
      then ['.']
      else strings.Join ((e :: es).foldl (cleanStep false) []).reverse [Separator] := by
  have hne : strings.Join (e :: es) [Separator] ≠ [] := strings.Join_ne_nil e es _ he
  have hroot : decide ((strings.Join (e :: es) [Separator]).head? = some Separator) = false := by
    rw [strings.Join_head e es _ he]
    cases e with
    | nil => exact absurd rfl he
    | cons c cs =>
      have hc : c ≠ '/' := fun x => h (c :: cs) (by simp) (by simp [x])
      simp [Separator, hc]
  have hsplit : strings.Split (strings.Join (e :: es) [Separator]) Separator = e :: es :=
    strings.Split_Join (e :: es) Separator (by simp) h
  unfold Clean
  rw [if_neg hne]
  simp only [hroot, hsplit]
  simp

theorem Join_singleton (seg : GoString) (h : '/' ∉ seg) : Join [seg] = seg := by
  unfold Join
  by_cases he : seg = []
  · simp [he, Join]
  · rw [if_pos he, Clean_Join seg [] he (by simpa using h)]
    simp only [List.foldl_cons, List.foldl_nil]
    unfold cleanStep
    rw [if_neg he]
    by_cases h2 : seg = ['.']
    · simp [h2, strings.Join]
    · rw [if_neg h2]
      by_cases h3 : seg = ['.', '.']
      · simp [h3, strings.Join]
      · simp [h3, strings.Join, he]

/-- On elements that `Clean` keeps, `Join` is the plain join with the separator. -/
theorem Join_of_okStack (segs : List GoString) (hne : segs ≠ [])
    (h : okStack segs.reverse) : Join segs = strings.Join segs [Separator] := by
  cases segs with
  | nil => exact absurd rfl hne
  | cons e es =>
    have hmem : ∀ seg ∈ e :: es, okSeg seg := fun seg hseg =>
      okStack_mem _ h seg (List.mem_reverse.mpr hseg)
    have he : e ≠ [] := (hmem e (by simp)).1
    unfold Join
    rw [if_pos he, Clean_Join e es he (fun seg hseg => (hmem seg hseg).2.2),
      foldl_cleanStep_of_okStack (e :: es) [] (by simpa using h)]
    simp only [List.append_nil, List.reverse_reverse]
    rw [if_neg (strings.Join_ne_nil e es _ he)]

/-- The shape of a list of elements none of which is empty, `.` or `..`. -/
theorem okStack_of_plain (segs : List GoString)
    (h : ∀ seg ∈ segs, seg ≠ [] ∧ seg ≠ ['.'] ∧ seg ≠ ['.', '.'] ∧ '/' ∉ seg) :
    okStack segs := by
  induction segs with
  | nil => trivial
  | cons seg segs ih =>
    have hs := h seg (by simp)
    exact ⟨⟨hs.1, hs.2.1, hs.2.2.2⟩, fun e => absurd e hs.2.2.1,
      ih (fun s hsm => h s (by simp [hsm]))⟩

/-- The three forms of the result of `Join` on elements without a separator. -/
theorem Join_forms (segs : List GoString) (h : ∀ seg ∈ segs, '/' ∉ seg) :
    Join segs = [] ∨ Join segs = ['.'] ∨
      ∃ st : List GoString, st ≠ [] ∧ okStack st.reverse ∧
        Join segs = strings.Join st [Separator] := by
  induction segs with
  | nil => exact Or.inl rfl
  | cons e es ih =>
    by_cases he : e = []
    · have : Join (e :: es) = Join es := by
        rw [Join, if_neg (by simpa using he)]
      rw [this]
      exact ih (fun seg hseg => h seg (by simp [hseg]))
    · have hj : Join (e :: es) = Clean (strings.Join (e :: es) [Separator]) := by
        rw [Join, if_pos he]
      rw [hj, Clean_Join e es he h]
      by_cases hb :
          strings.Join ((e :: es).foldl (cleanStep false) []).reverse [Separator] = []
      · rw [if_pos hb]; exact Or.inr (Or.inl rfl)
      · rw [if_neg hb]
        refine Or.inr (Or.inr ⟨((e :: es).foldl (cleanStep false) []).reverse, ?_, ?_, rfl⟩)
        · intro hnil
          rw [hnil] at hb
          exact hb rfl
        · rw [List.reverse_reverse]
          exact okStack_foldl false (e :: es) [] trivial h

/-- The result of `Join` on the elements of a path is kept by splitting it
and joining it again. -/
theorem Join_Split_Join (segs : List GoString) (h : ∀ seg ∈ segs, '/' ∉ seg) :
    Join (strings.Split (Join segs) '/') = Join segs := by
  rcases Join_forms segs h with h0 | h1 | ⟨st, hne, hst, hj⟩
  · rw [h0]; decide
  · rw [h1]; decide
  · rw [hj]
    have hsf : ∀ seg ∈ st, '/' ∉ seg := fun seg hseg =>
      (okStack_mem _ hst seg (List.mem_reverse.mpr hseg)).2.2
    have : strings.Split (strings.Join st [Separator]) '/' = st :=
      strings.Split_Join st '/' hne hsf
    rw [this, Join_of_okStack st hne hst]

end filepath

/-! ## Counting separators -/

namespace strings

theorem count_Join (st : List GoString) (sep : Char) (h : ∀ seg ∈ st, sep ∉ seg) :
    (Join st [sep]).count sep = st.length - 1 := by
  induction st with
  | nil => rfl
  | cons e es ih =>
    have he : e.count sep = 0 := List.count_eq_zero.mpr (h e (by simp))
    cases es with
    | nil => simpa [Join] using he
    | cons e2 es =>
      have := ih (fun seg hseg => h seg (by simp [hseg]))
      simp only [Join, List.count_append, he, this, List.length_cons]
      simp
      omega

theorem count_eq_length_Split (s : GoString) (sep : Char) :
    s.count sep = (Split s sep).length - 1 := by
  have := count_Join (Split s sep) sep (not_mem_of_mem_Split s sep)
  rw [Join_Split] at this
  exact this

end strings

namespace filepath

theorem length_cleanStep_le (rooted : Bool) (out : List GoString) (seg : GoString) :
    (cleanStep rooted out seg).length ≤ out.length + 1 := by
  by_cases h3 : seg = ['.', '.']
  · subst h3
    cases out with
    | nil =>
      rw [cleanStep_dotdot_nil]
      cases rooted <;> simp
    | cons top rest =>
      rw [cleanStep_dotdot_cons]
      split_ifs <;> simp only [List.length_cons] <;> omega
  · unfold cleanStep
    split_ifs
    · omega
    · omega
    · simp

theorem length_foldl_cleanStep_le (rooted : Bool) (segs out : List GoString) :
    (segs.foldl (cleanStep rooted) out).length ≤ out.length + segs.length := by
  induction segs generalizing out with
  | nil => simp
  | cons seg segs ih =>
    have h1 := ih (cleanStep rooted out seg)
    have h2 := length_cleanStep_le rooted out seg
    simp only [List.foldl_cons, List.length_cons]
    omega

/-- The result of `Join` on `k` elements without a separator has fewer than `k`
separators. -/
theorem count_Join_le (segs : List GoString) (h : ∀ seg ∈ segs, '/' ∉ seg) :
    (Join segs).count '/' ≤ segs.length - 1 := by
  induction segs with
  | nil => simp [Join]
  | cons e es ih =>
    by_cases he : e = []
    · have : Join (e :: es) = Join es := by
        rw [Join, if_neg (by simpa using he)]
      rw [this]
      have := ih (fun seg hseg => h seg (by simp [hseg]))
      simp only [List.length_cons]
      omega
    · have hj : Join (e :: es) = Clean (strings.Join (e :: es) [Separator]) := by
        rw [Join, if_pos he]
      rw [hj, Clean_Join e es he h]
      split_ifs with hb
      · simp
      · have hst : okStack ((e :: es).foldl (cleanStep false) []) :=
          okStack_foldl false (e :: es) [] trivial h
        have hcount := strings.count_Join ((e :: es).foldl (cleanStep false) []).reverse '/'
          (fun seg hseg => (okStack_mem _ hst seg (List.mem_reverse.mp hseg)).2.2)
        have hlen := length_foldl_cleanStep_le false (e :: es) []
        have hsep : [Separator] = ['/'] := rfl
        rw [hsep, hcount]
        simp only [List.length_reverse, List.length_nil, Nat.zero_add] at hlen ⊢
        omega

end filepath

/-! ## The path of a file diff -/

namespace watchdogs

open diff

/-- The slice of `strippedPath` is in range: the path is always computed. -/
theorem strippedPath_eq (pathNew : GoString) (strip : Nat) :
    strippedPath pathNew strip =
      some (if (strings.Split pathNew '/').length > strip
        then filepath.Join ((strings.Split pathNew '/').drop strip) else pathNew) := by
  unfold strippedPath filepath.ToSlash
  by_cases h : (strings.Split pathNew '/').length > strip
  · simp [h, sliceFrom_of_le _ _ (Nat.le_of_lt h)]
  · simp [h]

end watchdogs

/-! ## The lines of one file diff -/

namespace watchdogs

open diff

theorem addLine_apply (path : GoString) (m : GoMap Int AddedLine) (line : Line) (lnum : Int) :
    addLine path m line lnum =
      if addedAt lnum line = true then some (recordOf path line) else m lnum := by
  unfold addLine addedAt recordOf
  by_cases ht : line.Typ = LineType.LineAdded
  · by_cases hl : line.LnumNew = lnum
    · simp [ht, hl]
    · have hne : lnum ≠ line.LnumNew := fun h => hl h.symm
      simp [ht, hl, GoMap.set_other _ _ _ _ hne]
  · simp [ht]

theorem foldl_addLine_apply (path : GoString) (lines : List Line) (m : GoMap Int AddedLine)
    (lnum : Int) :
    lines.foldl (addLine path) m lnum =
      match lines.reverse.find? (addedAt lnum) with
      | some line => some (recordOf path line)
      | none => m lnum := by
  induction lines using List.reverseRecOn with
  | nil => simp
  | append_singleton lines line ih =>
    rw [List.foldl_append, List.reverse_append]
    simp only [List.foldl_cons, List.foldl_nil, List.reverse_cons, List.reverse_nil,
      List.nil_append, List.singleton_append, List.find?_cons, addLine_apply]
    by_cases h : addedAt lnum line = true
    · simp [h]
    · simp only [h, if_false, ih]
      simp only [Bool.not_eq_true] at h
      simp [h]

theorem foldl_addHunk_eq (path : GoString) (hunks : List Hunk) (m : GoMap Int AddedLine) :
    hunks.foldl (addHunk path) m =
      (hunks.flatMap (fun hunk => hunk.Lines)).foldl (addLine path) m := by
  induction hunks generalizing m with
  | nil => rfl
  | cons hunk hunks ih =>
    simp only [List.foldl_cons, List.flatMap_cons, List.foldl_append]
    rw [ih]
    rfl

/-- The entry of a line number in the map built for one file diff: the record
of the last added line with that number, if there is one. -/
theorem fileLines_apply (path : GoString) (filediff : FileDiff) (lnum : Int) :
    fileLines path filediff lnum =
      ((allLines filediff).reverse.find? (addedAt lnum)).map (recordOf path) := by
  unfold fileLines allLines
  rw [foldl_addHunk_eq, foldl_addLine_apply]
  cases (filediff.Hunks.flatMap (fun hunk => hunk.Lines)).reverse.find? (addedAt lnum) <;> rfl

end watchdogs

/-! ## The table of all file diffs -/

namespace watchdogs

open diff

theorem addFiles_append (strip : Nat) (xs ys : List FileDiff) (r : PosToAddedLine) :
    addFiles strip (xs ++ ys) r = (addFiles strip xs r).bind (addFiles strip ys) := by
  induction xs generalizing r with
  | nil => rfl
  | cons x xs ih =>
    simp only [List.cons_append, addFiles]
    cases strippedPath x.PathNew strip with
    | none => rfl
    | some path => exact ih _

/-- The table `AddedLines` returns: the entry of a path is the map built for
the last file diff indexed under that path. -/
theorem addFiles_eq (strip : Nat) (filediffs : List FileDiff) (r : PosToAddedLine) :
    ∃ idx : PosToAddedLine, addFiles strip filediffs r = some idx ∧
      ∀ path, idx path =
        match filediffs.reverse.find? (hasPath strip path) with
        | some filediff => some (fileLines path filediff)
        | none => r path := by
  induction filediffs using List.reverseRecOn with
  | nil => exact ⟨r, rfl, fun path => by simp⟩
  | append_singleton filediffs filediff ih =>
    obtain ⟨idx, hidx, hget⟩ := ih
    rw [addFiles_append, hidx]
    simp only [Option.some_bind, addFiles, strippedPath_eq]
    refine ⟨_, rfl, fun path => ?_⟩
    rw [List.reverse_append]
    simp only [List.reverse_cons, List.reverse_nil, List.nil_append, List.singleton_append,
      List.find?_cons]
    by_cases hp : hasPath strip path filediff = true
    · have hp2 := hp
      simp only [hasPath, strippedPath_eq, decide_eq_true_eq, Option.some.injEq] at hp2
      simp [hp, hp2, GoMap.set_apply]
    · have hp2 := hp
      simp only [hasPath, strippedPath_eq, decide_eq_true_eq, Option.some.injEq] at hp2
      have hne : path ≠ (if (strings.Split filediff.PathNew '/').length > strip
          then filepath.Join ((strings.Split filediff.PathNew '/').drop strip)
          else filediff.PathNew) := fun h => hp2 h.symm
      simp only [Bool.not_eq_true] at hp
      simp only [hp, GoMap.set_other _ _ _ _ hne]
      exact hget path

theorem AddedLines_eq (filediffs : List FileDiff) (strip : Nat) :
    ∃ idx : PosToAddedLine, AddedLines filediffs strip = some idx ∧
      ∀ path, idx path =
        (filediffs.reverse.find? (hasPath strip path)).map (fileLines path) := by
  obtain ⟨idx, hidx, hget⟩ := addFiles_eq strip filediffs GoMap.empty
  refine ⟨idx, hidx, fun path => ?_⟩
  rw [hget]
  cases filediffs.reverse.find? (hasPath strip path) <;> rfl

theorem Get_eq (p : PosToAddedLine) (path : GoString) (lnum : Int) :
    p.Get path lnum = (p path).bind (fun ltodiff => ltodiff lnum) := by
  unfold PosToAddedLine.Get
  cases p path with
  | none => rfl
  | some ltodiff =>
    simp only [Option.some_bind]
    cases ltodiff lnum <;> rfl

end watchdogs

/-! ## C1, C2: what the table holds -/

namespace watchdogs

open diff

/-- C1, as stated, fails.  In `twiceAdded` the added line (10, 5, "x") is in the
only hunk of the only file diff, whose path stays `f.go` with strip count 0, yet
`Get` at (`f.go`, 10) returns the record of the later line, with diff line 6 and
content "y".  In `samePath` the added line (10, 5, "x") is in the first file
diff, indexed under `f.go` with strip count 1, yet `Get` at (`f.go`, 10)
returns not-found, the second file diff having replaced the whole entry. -/
theorem index_completeness_counterexample :
    (added 10 5 "x" ∈ allLines twiceFile ∧
      strippedPath "f.go".toList 0 = some "f.go".toList ∧
      (AddedLines twiceAdded 0).bind (fun idx => idx.Get "f.go".toList 10) =
        some { Path := "f.go".toList, Lnum := 10, LnumDiff := 6, Content := "y".toList }) ∧
    (added 10 5 "x" ∈ allLines leftFile ∧
      strippedPath "a/f.go".toList 1 = some "f.go".toList ∧
      (AddedLines samePath 1).map (fun idx => idx.Get "f.go".toList 10) = some none) := by
  decide

/-- C1, amended: an added line that is the last added line with its new-file
line number in its file diff, in a file diff that is the last one indexed under
its path, is found by `Get` under that path and its line number, with its
content and diff line number. -/
theorem index_completeness (strip : Nat) (pre post : List FileDiff) (filediff : FileDiff)
    (hpre hpost : List Hunk) (hunk : Hunk) (lpre lpost : List Line) (line : Line)
    (hH : filediff.Hunks = hpre ++ hunk :: hpost)
    (hL : hunk.Lines = lpre ++ line :: lpost)
    (hadd : line.Typ = LineType.LineAdded)
    (hlines : ∀ l2 ∈ lpost, ¬ (l2.Typ = LineType.LineAdded ∧ l2.LnumNew = line.LnumNew))
    (hhunks : ∀ h2 ∈ hpost, ∀ l2 ∈ h2.Lines,
      ¬ (l2.Typ = LineType.LineAdded ∧ l2.LnumNew = line.LnumNew))
    (hfiles : ∀ g ∈ post, strippedPath g.PathNew strip ≠ strippedPath filediff.PathNew strip) :
    ∃ (idx : PosToAddedLine) (key : GoString) (r : AddedLine),
      AddedLines (pre ++ filediff :: post) strip = some idx ∧
      strippedPath filediff.PathNew strip = some key ∧
      idx.Get key line.LnumNew = some r ∧
      r.Content = line.Content ∧ r.LnumDiff = line.LnumDiff := by
  obtain ⟨idx, hidx, hget⟩ := AddedLines_eq (pre ++ filediff :: post) strip
  obtain ⟨key, hkey⟩ : ∃ key, strippedPath filediff.PathNew strip = some key :=
    ⟨_, strippedPath_eq _ _⟩
  have hfile : (pre ++ filediff :: post).reverse.find? (hasPath strip key) = some filediff := by
    apply find?_reverse_append_cons
    · simp [hasPath, hkey]
    · intro g hg
      have := hfiles g hg
      simp only [hasPath, decide_eq_false_iff_not]
      rw [hkey] at this
      exact this
  have hall : allLines filediff =
      (hpre.flatMap (fun h => h.Lines) ++ lpre) ++
        line :: (lpost ++ hpost.flatMap (fun h => h.Lines)) := by
    simp [allLines, hH, hL]
  have hline : (allLines filediff).reverse.find? (addedAt line.LnumNew) = some line := by
    rw [hall]
    apply find?_reverse_append_cons
    · simp [addedAt, hadd]
    · intro l2 hl2
      simp only [addedAt, decide_eq_false_iff_not]
      rcases List.mem_append.mp hl2 with h | h
      · exact hlines l2 h
      · obtain ⟨h2, hh2, hl⟩ := List.mem_flatMap.mp h
        exact hhunks h2 hh2 l2 hl
  refine ⟨idx, key, recordOf key line, hidx, hkey, ?_, rfl, rfl⟩
  rw [Get_eq, hget, hfile]
  simp [fileLines_apply, hline]

/-- The amended C1 at a concrete diff: the last of two added lines numbered 10. -/
theorem index_completeness_witness :
    ∃ (idx : PosToAddedLine) (key : GoString) (r : AddedLine),
      AddedLines ([] ++ twiceFile :: []) 0 = some idx ∧
      strippedPath twiceFile.PathNew 0 = some key ∧
      idx.Get key (added 10 6 "y").LnumNew = some r ∧
      r.Content = (added 10 6 "y").Content ∧ r.LnumDiff = (added 10 6 "y").LnumDiff :=
  index_completeness 0 [] [] twiceFile [] []
    { Lines := [added 10 5 "x", added 10 6 "y"] } [added 10 5 "x"] [] (added 10 6 "y")
    rfl rfl rfl (by simp) (by simp) (by simp)

/-- C2: a record found by `Get` in the table of `AddedLines` comes from a line
classified as added, in a hunk of a file diff indexed under the queried path,
with the queried new-file line number and the record's diff line number and
content; when no line of the input is classified as added, every query returns
not-found. -/
theorem index_soundness (filediffs : List FileDiff) (strip : Nat) :
    ∃ idx : PosToAddedLine, AddedLines filediffs strip = some idx ∧
      (∀ (path : GoString) (lnum : Int) (r : AddedLine), idx.Get path lnum = some r →
        ∃ filediff ∈ filediffs, strippedPath filediff.PathNew strip = some path ∧
          ∃ hunk ∈ filediff.Hunks, ∃ line ∈ hunk.Lines,
            line.Typ = LineType.LineAdded ∧ line.LnumNew = lnum ∧
            line.LnumDiff = r.LnumDiff ∧ line.Content = r.Content) ∧
      ((∀ filediff ∈ filediffs, ∀ hunk ∈ filediff.Hunks, ∀ line ∈ hunk.Lines,
          line.Typ ≠ LineType.LineAdded) →
        ∀ (path : GoString) (lnum : Int), idx.Get path lnum = none) := by
  obtain ⟨idx, hidx, hget⟩ := AddedLines_eq filediffs strip
  have sound : ∀ (path : GoString) (lnum : Int) (r : AddedLine), idx.Get path lnum = some r →
      ∃ filediff ∈ filediffs, strippedPath filediff.PathNew strip = some path ∧
        ∃ hunk ∈ filediff.Hunks, ∃ line ∈ hunk.Lines,
          line.Typ = LineType.LineAdded ∧ line.LnumNew = lnum ∧
          line.LnumDiff = r.LnumDiff ∧ line.Content = r.Content := by
    intro path lnum r hr
    rw [Get_eq, hget] at hr
    cases hf : filediffs.reverse.find? (hasPath strip path) with
    | none => simp [hf] at hr
    | some filediff =>
      have hmem : filediff ∈ filediffs := by
        have := List.mem_of_find?_eq_some hf
        simpa using this
      have hpath : strippedPath filediff.PathNew strip = some path := by
        have := List.find?_some hf
        simpa [hasPath] using this
      simp only [hf, Option.map_some', Option.some_bind, fileLines_apply] at hr
      cases hl : (allLines filediff).reverse.find? (addedAt lnum) with
      | none => simp [hl] at hr
      | some line =>
        have hlmem : line ∈ allLines filediff := by
          have := List.mem_of_find?_eq_some hl
          simpa using this
        have hprop : line.Typ = LineType.LineAdded ∧ line.LnumNew = lnum := by
          have := List.find?_some hl
          simpa [addedAt] using this
        obtain ⟨hunk, hhunk, hin⟩ := List.mem_flatMap.mp hlmem
        simp only [hl, Option.map_some', Option.some.injEq] at hr
        subst hr
        exact ⟨filediff, hmem, hpath, hunk, hhunk, line, hin, hprop.1, hprop.2, rfl, rfl⟩
  refine ⟨idx, hidx, sound, fun hnone path lnum => ?_⟩
  cases hr : idx.Get path lnum with
  | none => rfl
  | some r =>
    obtain ⟨filediff, hmem, _, hunk, hhunk, line, hin, hadd, _⟩ := sound path lnum r hr
    exact absurd hadd (hnone filediff hmem hunk hhunk line hin)

end watchdogs

/-! ## C8: the lookup -/

namespace watchdogs

open diff

/-- C8: `Get` returns a found record exactly when the table has an entry for
the very path queried and that entry has one for the line number, and then it
is the stored record; it returns not-found when the path has no entry and when
the entry of the path has none for the line number.  An entry stored under
another path is never consulted. -/
theorem Get_two_level (p : PosToAddedLine) (path : GoString) (lnum : Int) :
    (∀ r : AddedLine, p.Get path lnum = some r ↔
      ∃ ltodiff, p path = some ltodiff ∧ ltodiff lnum = some r) ∧
    ((p.Get path lnum).isSome = true ↔
      ∃ ltodiff, p path = some ltodiff ∧ (ltodiff lnum).isSome = true) ∧
    (p path = none → p.Get path lnum = none) ∧
    (∀ ltodiff, p path = some ltodiff → ltodiff lnum = none → p.Get path lnum = none) ∧
    (∀ (key : GoString) (ltodiff : GoMap Int AddedLine), key ≠ path →
      PosToAddedLine.Get (GoMap.set p key ltodiff) path lnum = p.Get path lnum) := by
  refine ⟨fun r => ?_, ?_, ?_, ?_, ?_⟩
  · rw [Get_eq]
    cases p path <;> simp
  · rw [Get_eq]
    cases p path <;> simp
  · intro h
    rw [Get_eq, h]
    rfl
  · intro ltodiff h1 h2
    rw [Get_eq, h1]
    exact h2
  · intro key ltodiff hne
    rw [Get_eq, Get_eq, GoMap.set_other _ _ _ _ (fun h => hne h.symm)]

end watchdogs

/-! ## C3, C4, C9, C10: the run -/

namespace watchdogs

open diff

theorem matchedComments_cons_none (idx : PosToAddedLine) (result : CheckResult)
    (rest : List CheckResult) (h : idx.Get result.Path result.Lnum = none) :
    matchedComments idx (result :: rest) = matchedComments idx rest := by
  simp [matchedComments, List.filterMap_cons, h]

theorem matchedComments_cons_some (idx : PosToAddedLine) (result : CheckResult)
    (rest : List CheckResult) (a : AddedLine) (h : idx.Get result.Path result.Lnum = some a) :
    matchedComments idx (result :: rest) = commentOf result a :: matchedComments idx rest := by
  simp [matchedComments, List.filterMap_cons, h]

/-- The loop of `Run` when no call of the sink on a matched finding fails. -/
theorem postResults_ok (c : CommentService) (idx : PosToAddedLine)
    (results : List CheckResult) (calls : List Call)
    (hok : ∀ (j : Nat) (cm : Comment), (matchedComments idx results)[j]? = some cm →
      c.Post (calls ++ ((matchedComments idx results).take j).map Call.Post) cm = none) :
    postResults c idx results calls =
      { calls := calls ++ (matchedComments idx results).map Call.Post, err := none } := by
  induction results generalizing calls with
  | nil => simp [postResults, matchedComments]
  | cons result rest ih =>
    unfold postResults
    cases hg : idx.Get result.Path result.Lnum with
    | none =>
      rw [matchedComments_cons_none idx result rest hg] at hok ⊢
      exact ih calls hok
    | some a =>
      rw [matchedComments_cons_some idx result rest a hg] at hok ⊢
      have h0 := hok 0 (commentOf result a) (by simp)
      simp only [List.take_zero, List.map_nil, List.append_nil] at h0
      simp only [commentOf] at h0 ⊢
      simp only [h0]
      rw [ih (calls ++ [Call.Post _])]
      · simp [commentOf]
      · intro j cm hj
        have := hok (j + 1) cm (by simpa using hj)
        simpa [commentOf] using this

/-- The loop of `Run` when the sink fails for the first time on the matched
finding of index `k`, counted from 0. -/
theorem postResults_fail (c : CommentService) (idx : PosToAddedLine)
    (results : List CheckResult) (calls : List Call) (k : Nat) (ck : Comment) (e : Error)
    (hok : ∀ (j : Nat) (cm : Comment), j < k → (matchedComments idx results)[j]? = some cm →
      c.Post (calls ++ ((matchedComments idx results).take j).map Call.Post) cm = none)
    (hk : (matchedComments idx results)[k]? = some ck)
    (hfail : c.Post (calls ++ ((matchedComments idx results).take k).map Call.Post) ck = some e) :
    postResults c idx results calls =
      { calls := calls ++ ((matchedComments idx results).take (k + 1)).map Call.Post,
        err := some e } := by
  induction results generalizing calls k with
  | nil => simp [matchedComments] at hk
  | cons result rest ih =>
    unfold postResults
    cases hg : idx.Get result.Path result.Lnum with
    | none =>
      rw [matchedComments_cons_none idx result rest hg] at hok hk hfail ⊢
      exact ih calls k hok hk hfail
    | some a =>
      rw [matchedComments_cons_some idx result rest a hg] at hok hk hfail ⊢
      cases k with
      | zero =>
        simp only [List.getElem?_cons_zero, Option.some.injEq] at hk
        subst hk
        simp only [List.take_zero, List.map_nil, List.append_nil] at hfail
        simp only [commentOf] at hfail ⊢
        simp [hfail]
      | succ k =>
        have h0 := hok 0 (commentOf result a) (Nat.succ_pos k) (by simp)
        simp only [List.take_zero, List.map_nil, List.append_nil] at h0
        simp only [commentOf] at h0 ⊢
        simp only [h0]
        rw [ih (calls ++ [Call.Post _]) k]
        · simp [commentOf]
        · intro j cm hj hcm
          have := hok (j + 1) cm (Nat.succ_lt_succ hj) (by simpa using hcm)
          simpa [commentOf] using this
        · simpa using hk
        · simpa [commentOf] using hfail

theorem postResults_skip (c : CommentService) (idx : PosToAddedLine)
    (pre post : List CheckResult) (result : CheckResult) (calls : List Call)
    (h : idx.Get result.Path result.Lnum = none) :
    postResults c idx (pre ++ result :: post) calls = postResults c idx (pre ++ post) calls := by
  induction pre generalizing calls with
  | nil =>
    simp only [List.nil_append]
    rw [postResults, h]
  | cons x pre ih =>
    simp only [List.cons_append]
    unfold postResults
    cases idx.Get x.Path x.Lnum with
    | none => exact ih calls
    | some a =>
      simp only
      cases c.Post calls _ with
      | none => exact ih _
      | some e => rfl

theorem matchedComments_eq_nil (idx : PosToAddedLine) (results : List CheckResult)
    (h : ∀ result ∈ results, idx.Get result.Path result.Lnum = none) :
    matchedComments idx results = [] := by
  induction results with
  | nil => rfl
  | cons result rest ih =>
    rw [matchedComments_cons_none idx result rest (h result (by simp))]
    exact ih (fun x hx => h x (by simp [hx]))

theorem Run_of_stages (ParseMultiFile : GoString → Except Error (List FileDiff))
    (w : Watchdogs) (r : GoString) (results : List CheckResult) (d : GoString)
    (filediffs : List FileDiff) (idx : PosToAddedLine)
    (hparse : w.p r = Except.ok results) (hdiff : w.c.Diff [] = Except.ok d)
    (hpmf : ParseMultiFile d = Except.ok filediffs)
    (hidx : AddedLines filediffs w.strip = some idx) :
    w.Run ParseMultiFile r = some (postResults w.c idx results [Call.Diff]) := by
  simp only [Watchdogs.Run, hparse, hdiff, hpmf, hidx]

theorem AddedLines_fooFile : AddedLines [fooFile] 1 = some fooIndex := rfl

/-- C3: when the findings are parsed, the diff is retrieved and parsed, and the
sink never fails, `Run` returns `nil` and the calls on the sink are, in the
order of the findings, the comments of the findings that `Get` finds in the
table of `AddedLines`, each with the message of its finding and the path, line
number and diff line number of the record found; nothing is reordered and
nothing is merged. -/
theorem Run_correlation (ParseMultiFile : GoString → Except Error (List FileDiff))
    (w : Watchdogs) (r : GoString) (results : List CheckResult) (d : GoString)
    (filediffs : List FileDiff)
    (hparse : w.p r = Except.ok results) (hdiff : w.c.Diff [] = Except.ok d)
    (hpmf : ParseMultiFile d = Except.ok filediffs)
    (hsink : ∀ (calls : List Call) (comment : Comment), w.c.Post calls comment = none) :
    ∃ idx : PosToAddedLine, AddedLines filediffs w.strip = some idx ∧
      w.Run ParseMultiFile r =
        some
          { calls := Call.Diff ::
              (results.filterMap (fun result =>
                (idx.Get result.Path result.Lnum).map (fun addedline =>
                  ({ Body := result.Message, Path := addedline.Path, Lnum := addedline.Lnum,
                     LnumDiff := addedline.LnumDiff } : Comment)))).map Call.Post,
            err := none } := by
  obtain ⟨idx, hidx, _⟩ := AddedLines_eq filediffs w.strip
  refine ⟨idx, hidx, ?_⟩
  rw [Run_of_stages ParseMultiFile w r results d filediffs idx hparse hdiff hpmf hidx,
    postResults_ok w.c idx results [Call.Diff] (fun j cm _ => hsink _ cm)]
  rfl

/-- C3 at two findings on the same added line: two comments are posted, in the
order of the findings. -/
theorem Run_correlation_witness :
    (dog [finding "pkg/foo.go" 10 "unused variable x", finding "pkg/foo.go" 10 "x is short"]
        quietService 1).Run parseFoo [] =
      some
        { calls := [Call.Diff,
            Call.Post { Body := "unused variable x".toList, Path := "pkg/foo.go".toList,
                        Lnum := 10, LnumDiff := 5 },
            Call.Post { Body := "x is short".toList, Path := "pkg/foo.go".toList,
                        Lnum := 10, LnumDiff := 5 }],
          err := none } := by
  obtain ⟨idx, hidx, hrun⟩ := Run_correlation parseFoo
    (dog [finding "pkg/foo.go" 10 "unused variable x", finding "pkg/foo.go" 10 "x is short"]
      quietService 1) [] _ "diff".toList [fooFile] rfl rfl rfl (fun _ _ => rfl)
  have hfoo : idx = fooIndex := Option.some.inj (hidx.symm.trans AddedLines_fooFile)
  subst hfoo
  rw [hrun]
  decide

/-- C4: when the earlier stages succeed and the sink fails for the first time
on the matched finding of index `k` counted from 0, that is on the `k + 1`-th
matched finding, `Run` makes exactly `k + 1` calls on the sink, those of the
first `k + 1` matched findings in order, returns the error of the sink as it is,
and posts nothing for the findings that follow. -/
theorem Run_fail_fast (ParseMultiFile : GoString → Except Error (List FileDiff))
    (w : Watchdogs) (r : GoString) (results : List CheckResult) (d : GoString)
    (filediffs : List FileDiff)
    (hparse : w.p r = Except.ok results) (hdiff : w.c.Diff [] = Except.ok d)
    (hpmf : ParseMultiFile d = Except.ok filediffs) :
    ∃ idx : PosToAddedLine, AddedLines filediffs w.strip = some idx ∧
      ∀ (k : Nat) (ck : Comment) (e : Error),
        (∀ (j : Nat) (cm : Comment), j < k → (matchedComments idx results)[j]? = some cm →
          w.c.Post (Call.Diff :: ((matchedComments idx results).take j).map Call.Post) cm
            = none) →
        (matchedComments idx results)[k]? = some ck →
        w.c.Post (Call.Diff :: ((matchedComments idx results).take k).map Call.Post) ck
          = some e →
        w.Run ParseMultiFile r =
          some
            { calls := Call.Diff ::
                ((matchedComments idx results).take (k + 1)).map Call.Post,
              err := some e } := by
  obtain ⟨idx, hidx, _⟩ := AddedLines_eq filediffs w.strip
  refine ⟨idx, hidx, fun k ck e hok hk hfail => ?_⟩
  rw [Run_of_stages ParseMultiFile w r results d filediffs idx hparse hdiff hpmf hidx,
    postResults_fail w.c idx results [Call.Diff] k ck e hok hk hfail]
  rfl

/-- C4 at three matched findings with a sink that fails on its second call:
exactly two calls on the sink, the error of the sink, no third comment. -/
theorem Run_fail_fast_witness :
    (dog [finding "pkg/foo.go" 10 "first", finding "pkg/foo.go" 10 "second",
          finding "pkg/foo.go" 10 "third"] (failingService 2) 1).Run parseFoo [] =
      some
        { calls := [Call.Diff,
            Call.Post { Body := "first".toList, Path := "pkg/foo.go".toList,
                        Lnum := 10, LnumDiff := 5 },
            Call.Post { Body := "second".toList, Path := "pkg/foo.go".toList,
                        Lnum := 10, LnumDiff := 5 }],
          err := some "sink down".toList } := by
  obtain ⟨idx, hidx, hrun⟩ := Run_fail_fast parseFoo
    (dog [finding "pkg/foo.go" 10 "first", finding "pkg/foo.go" 10 "second",
          finding "pkg/foo.go" 10 "third"] (failingService 2) 1)
    [] _ "diff".toList [fooFile] rfl rfl rfl
  have hfoo : idx = fooIndex := Option.some.inj (hidx.symm.trans AddedLines_fooFile)
  subst hfoo
  rw [hrun 1
    { Body := "second".toList, Path := "pkg/foo.go".toList, Lnum := 10, LnumDiff := 5 }
    "sink down".toList
    (fun j cm hj _ => by
      obtain rfl : j = 0 := by omega
      rfl)
    (by decide) (by decide)]
  decide

/-- C9: when the earlier stages succeed, a finding that `Get` does not find in
the table changes nothing: the run is the run without that finding, with the
same calls on the sink and the same result; and when no finding is found, `Run`
makes no call on the sink and returns `nil`. -/
theorem Run_miss_silence (ParseMultiFile : GoString → Except Error (List FileDiff))
    (w : Watchdogs) (r : GoString) (results : List CheckResult) (d : GoString)
    (filediffs : List FileDiff)
    (hparse : w.p r = Except.ok results) (hdiff : w.c.Diff [] = Except.ok d)
    (hpmf : ParseMultiFile d = Except.ok filediffs) :
    ∃ idx : PosToAddedLine, AddedLines filediffs w.strip = some idx ∧
      (∀ (pre post : List CheckResult) (result : CheckResult),
        results = pre ++ result :: post → idx.Get result.Path result.Lnum = none →
        w.Run ParseMultiFile r =
          Watchdogs.Run ParseMultiFile
            { p := fun _ => Except.ok (pre ++ post), c := w.c, strip := w.strip } r) ∧
      ((∀ result ∈ results, idx.Get result.Path result.Lnum = none) →
        w.Run ParseMultiFile r = some { calls := [Call.Diff], err := none }) := by
  obtain ⟨idx, hidx, _⟩ := AddedLines_eq filediffs w.strip
  refine ⟨idx, hidx, fun pre post result hres hmiss => ?_, fun hall => ?_⟩
  · rw [Run_of_stages ParseMultiFile w r results d filediffs idx hparse hdiff hpmf hidx,
      Run_of_stages ParseMultiFile
        { p := fun _ => Except.ok (pre ++ post), c := w.c, strip := w.strip } r (pre ++ post) d
        filediffs idx rfl hdiff hpmf hidx,
      hres, postResults_skip w.c idx pre post result [Call.Diff] hmiss]
  · rw [Run_of_stages ParseMultiFile w r results d filediffs idx hparse hdiff hpmf hidx,
      postResults_ok w.c idx results [Call.Diff]
        (fun j cm hj => by simp [matchedComments_eq_nil idx results hall] at hj),
      matchedComments_eq_nil idx results hall]
    rfl

/-- C9 at a finding on line 11 when only line 10 is added: no call on the sink
and no error, even with a sink that would fail on its first call. -/
theorem Run_miss_silence_witness :
    (dog [finding "pkg/foo.go" 11 "unused variable y"] (failingService 1) 1).Run parseFoo [] =
      some { calls := [Call.Diff], err := none } := by
  obtain ⟨idx, hidx, _, hrun⟩ := Run_miss_silence parseFoo
    (dog [finding "pkg/foo.go" 11 "unused variable y"] (failingService 1) 1)
    [] _ "diff".toList [fooFile] rfl rfl rfl
  have hfoo : idx = fooIndex := Option.some.inj (hidx.symm.trans AddedLines_fooFile)
  subst hfoo
  exact hrun (by decide)

/-- C10: when the parsing of the findings fails, `Run` returns an error that
starts with `parse error: ` and calls neither `Diff` nor the sink; when the
retrieval of the diff fails, it returns an error that starts with
`fail to get diff: ` and makes no call on the sink; when the parsing of the
diff fails, it returns an error that starts with `fail to parse diff: ` and
makes no call on the sink. -/
theorem Run_stage_failures (ParseMultiFile : GoString → Except Error (List FileDiff))
    (w : Watchdogs) (r : GoString) :
    (∀ e : Error, w.p r = Except.error e →
      w.Run ParseMultiFile r =
        some { calls := [], err := some ("parse error: ".toList ++ e) }) ∧
    (∀ (results : List CheckResult) (e : Error), w.p r = Except.ok results →
      w.c.Diff [] = Except.error e →
      w.Run ParseMultiFile r =
        some { calls := [Call.Diff], err := some ("fail to get diff: ".toList ++ e) }) ∧
    (∀ (results : List CheckResult) (d : GoString) (e : Error), w.p r = Except.ok results →
      w.c.Diff [] = Except.ok d → ParseMultiFile d = Except.error e →
      w.Run ParseMultiFile r =
        some { calls := [Call.Diff], err := some ("fail to parse diff: ".toList ++ e) }) := by
  refine ⟨fun e hp => ?_, fun results e hp hd => ?_, fun results d e hp hd hm => ?_⟩
  · simp only [Watchdogs.Run, hp]
  · simp only [Watchdogs.Run, hp, hd]
  · simp only [Watchdogs.Run, hp, hd, hm]

/-- C10 at a parser that fails, at a diff that cannot be retrieved, and at a
diff that cannot be parsed. -/
theorem Run_stage_failures_witness :
    (deafDog quietService).Run parseFoo [] =
      some { calls := [], err := some "parse error: bad line".toList } ∧
    (dog [finding "pkg/foo.go" 10 "unused variable x"] noDiffService 1).Run parseFoo [] =
      some { calls := [Call.Diff], err := some "fail to get diff: timeout".toList } ∧
    (dog [finding "pkg/foo.go" 10 "unused variable x"] quietService 1).Run parseNothing [] =
      some { calls := [Call.Diff], err := some "fail to parse diff: bad hunk".toList } :=
  ⟨(Run_stage_failures parseFoo (deafDog quietService) []).1 "bad line".toList rfl,
   (Run_stage_failures parseFoo
      (dog [finding "pkg/foo.go" 10 "unused variable x"] noDiffService 1) []).2.1
      _ "timeout".toList rfl rfl,
   (Run_stage_failures parseNothing
      (dog [finding "pkg/foo.go" 10 "unused variable x"] quietService 1) []).2.2
      _ "diff".toList "bad hunk".toList rfl rfl rfl⟩

end watchdogs

/-! ## C5, C6, C7: the path under which a file diff is indexed -/

namespace watchdogs

open diff

/-- What `Get` returns on the table of `AddedLines`: the record of the last
added line with the queried line number in the last file diff indexed under
the queried path. -/
theorem Get_AddedLines (filediffs : List FileDiff) (strip : Nat) :
    ∃ idx : PosToAddedLine, AddedLines filediffs strip = some idx ∧
      ∀ (path : GoString) (lnum : Int), idx.Get path lnum =
        (filediffs.reverse.find? (hasPath strip path)).bind (fun filediff =>
          ((allLines filediff).reverse.find? (addedAt lnum)).map (recordOf path)) := by
  obtain ⟨idx, hidx, hget⟩ := AddedLines_eq filediffs strip
  refine ⟨idx, hidx, fun path lnum => ?_⟩
  rw [Get_eq, hget]
  cases filediffs.reverse.find? (hasPath strip path) with
  | none => rfl
  | some filediff => simp [fileLines_apply]

/-- C5, as stated, fails.  The path `a/./b.go` splits into the three elements
`a`, `.`, `b.go`, more than the strip count 0, and the join of these elements
with the separator is `a/./b.go`; yet the file diff is indexed under `a/b.go`,
which is also the `Path` of its record, and nothing is found under `a/./b.go`. -/
theorem path_rule_counterexample :
    strings.Split dotFile.PathNew '/' = ["a".toList, ".".toList, "b.go".toList] ∧
    strings.Join ((strings.Split dotFile.PathNew '/').drop 0) ['/'] = "a/./b.go".toList ∧
    strippedPath dotFile.PathNew 0 = some "a/b.go".toList ∧
    (AddedLines [dotFile] 0).map (fun idx => idx.Get "a/./b.go".toList 3) = some none ∧
    (AddedLines [dotFile] 0).bind (fun idx => idx.Get "a/b.go".toList 3) =
      some { Path := "a/b.go".toList, Lnum := 3, LnumDiff := 7, Content := "y".toList } := by
  decide

/-- C5, amended: a file diff whose new-file path splits on `/` into `m` elements
is indexed, and its records carry as `Path`, the original path when `m ≤ n`, and
`filepath.Join` of the elements `n..m-1` when `m > n`; that is their join with
the separator whenever none of these elements is empty, `.` or `..`. -/
theorem path_rule (filediffs : List FileDiff) (filediff : FileDiff) (strip : Nat)
    (hmem : filediff ∈ filediffs) :
    ∃ (idx : PosToAddedLine) (key : GoString),
      AddedLines filediffs strip = some idx ∧
      strippedPath filediff.PathNew strip = some key ∧
      (idx key).isSome = true ∧
      (∀ (lnum : Int) (r : AddedLine), idx.Get key lnum = some r → r.Path = key) ∧
      ((strings.Split filediff.PathNew '/').length ≤ strip → key = filediff.PathNew) ∧
      (strip < (strings.Split filediff.PathNew '/').length →
        key = filepath.Join ((strings.Split filediff.PathNew '/').drop strip)) ∧
      (strip < (strings.Split filediff.PathNew '/').length →
        (∀ seg ∈ (strings.Split filediff.PathNew '/').drop strip,
          seg ≠ [] ∧ seg ≠ ['.'] ∧ seg ≠ ['.', '.']) →
        key = strings.Join ((strings.Split filediff.PathNew '/').drop strip) ['/']) := by
  obtain ⟨idx, hidx, hget⟩ := AddedLines_eq filediffs strip
  obtain ⟨_, hidx2, hrec⟩ := Get_AddedLines filediffs strip
  have hsame := Option.some.inj (hidx.symm.trans hidx2)
  subst hsame
  have hkey := strippedPath_eq filediff.PathNew strip
  obtain ⟨key, hk⟩ : ∃ key : GoString, key =
      (if (strings.Split filediff.PathNew '/').length > strip
        then filepath.Join ((strings.Split filediff.PathNew '/').drop strip)
        else filediff.PathNew) := ⟨_, rfl⟩
  rw [← hk] at hkey
  refine ⟨idx, key, hidx, hkey, ?_, ?_, ?_, ?_, ?_⟩
  · rw [hget]
    have : (filediffs.reverse.find? (hasPath strip key)).isSome = true :=
      List.find?_isSome.mpr ⟨filediff, List.mem_reverse.mpr hmem, by simp [hasPath, hkey]⟩
    cases hf : filediffs.reverse.find? (hasPath strip key) with
    | none => rw [hf] at this; exact absurd this (by simp)
    | some g => rfl
  · intro lnum r hr
    rw [hrec] at hr
    cases hf : filediffs.reverse.find? (hasPath strip key) with
    | none => simp [hf] at hr
    | some g =>
      simp only [hf, Option.some_bind] at hr
      cases hl : (allLines g).reverse.find? (addedAt lnum) with
      | none => simp [hl] at hr
      | some line =>
        simp only [hl, Option.map_some', Option.some.injEq] at hr
        rw [← hr]
        rfl
  · intro hle
    rw [hk, if_neg (by omega)]
  · intro hlt
    rw [hk, if_pos hlt]
  · intro hlt hplain
    rw [hk, if_pos hlt]
    have hsf : ∀ seg ∈ (strings.Split filediff.PathNew '/').drop strip, '/' ∉ seg :=
      fun seg hseg => strings.not_mem_of_mem_Split _ _ seg (List.mem_of_mem_drop hseg)
    have hne : (strings.Split filediff.PathNew '/').drop strip ≠ [] := by
      intro h0
      have := congrArg List.length h0
      simp only [List.length_drop, List.length_nil] at this
      omega
    exact filepath.Join_of_okStack _ hne
      (filepath.okStack_of_plain _ (fun seg hseg =>
        have hm := List.mem_reverse.mp hseg
        ⟨(hplain seg hm).1, (hplain seg hm).2.1, (hplain seg hm).2.2, hsf seg hm⟩))

/-- The amended C5 at the file diff of `a/pkg/foo.go`. -/
theorem path_rule_witness :
    ∃ (idx : PosToAddedLine) (key : GoString),
      AddedLines [fooFile] 1 = some idx ∧
      strippedPath fooFile.PathNew 1 = some key ∧
      (idx key).isSome = true ∧
      (∀ (lnum : Int) (r : AddedLine), idx.Get key lnum = some r → r.Path = key) ∧
      ((strings.Split fooFile.PathNew '/').length ≤ 1 → key = fooFile.PathNew) ∧
      (1 < (strings.Split fooFile.PathNew '/').length →
        key = filepath.Join ((strings.Split fooFile.PathNew '/').drop 1)) ∧
      (1 < (strings.Split fooFile.PathNew '/').length →
        (∀ seg ∈ (strings.Split fooFile.PathNew '/').drop 1,
          seg ≠ [] ∧ seg ≠ ['.'] ∧ seg ≠ ['.', '.']) →
        key = strings.Join ((strings.Split fooFile.PathNew '/').drop 1) ['/']) :=
  path_rule [fooFile] fooFile 1 (by simp)

/-- C6, as stated, fails.  With strip count 2 the path `a/b/c` has 2 + 1
elements; dropping exactly one leading element would give `b/c`, yet the path
becomes `c`.  With strip count 0 the path `a` has 0 + 1 elements and nothing is
dropped. -/
theorem strip_boundary_counterexample :
    (strings.Split "a/b/c".toList '/').length = 2 + 1 ∧
    strings.Join ((strings.Split "a/b/c".toList '/').drop 1) ['/'] = "b/c".toList ∧
    strippedPath "a/b/c".toList 2 = some "c".toList ∧
    (strings.Split "a".toList '/').length = 0 + 1 ∧
    strippedPath "a".toList 0 = some "a".toList := by
  decide

/-- C6, amended: a path with exactly `n` elements is left unchanged, and a path
with `n + 1` elements loses its `n` leading elements and becomes its last
element; that is exactly one element dropped when `n = 1`. -/
theorem strip_boundary (pathNew : GoString) (strip : Nat) :
    ((strings.Split pathNew '/').length = strip →
      strippedPath pathNew strip = some pathNew) ∧
    ((strings.Split pathNew '/').length = strip + 1 →
      ∃ seg : GoString, (strings.Split pathNew '/').drop strip = [seg] ∧
        (strings.Split pathNew '/').getLast? = some seg ∧
        strippedPath pathNew strip = some seg) := by
  refine ⟨fun h => ?_, fun h => ?_⟩
  · rw [strippedPath_eq, if_neg (by omega)]
  · have hlen : ((strings.Split pathNew '/').drop strip).length = 1 := by
      rw [List.length_drop]; omega
    obtain ⟨seg, hseg⟩ := List.length_eq_one.mp hlen
    refine ⟨seg, hseg, ?_, ?_⟩
    · have := List.take_append_drop strip (strings.Split pathNew '/')
      rw [hseg] at this
      rw [← this]
      simp
    · rw [strippedPath_eq, if_pos (by omega), hseg]
      have hsf : '/' ∉ seg :=
        strings.not_mem_of_mem_Split pathNew '/' seg
          (List.mem_of_mem_drop (by rw [hseg]; simp))
      rw [filepath.Join_singleton seg hsf]

/-- The amended C6 at strip count 2: `a/b` is unchanged and `a/b/c` becomes `c`. -/
theorem strip_boundary_witness :
    strippedPath "a/b".toList 2 = some "a/b".toList ∧
    ∃ seg : GoString, (strings.Split "a/b/c".toList '/').drop 2 = [seg] ∧
      (strings.Split "a/b/c".toList '/').getLast? = some seg ∧
      strippedPath "a/b/c".toList 2 = some seg :=
  ⟨(strip_boundary "a/b".toList 2).1 (by decide),
   (strip_boundary "a/b/c".toList 2).2 (by decide)⟩

/-- C7, as stated, fails.  With strip count 1 the path `a/b/c` becomes `b/c`,
and `b/c` becomes `c`. -/
theorem strip_idempotence_counterexample :
    strippedPath "a/b/c".toList 1 = some "b/c".toList ∧
    strippedPath "b/c".toList 1 = some "c".toList ∧
    (strippedPath "a/b/c".toList 1).bind (fun q => strippedPath q 1) ≠
      strippedPath "a/b/c".toList 1 := by
  decide

/-- C7, amended: the path `q` under which a file diff is indexed is left
unchanged by the same strip count `n` exactly when `n = 0` or `q` has at most
`n` elements. -/
theorem strip_idempotence (pathNew : GoString) (strip : Nat) :
    ∃ q : GoString, strippedPath pathNew strip = some q ∧
      (strippedPath q strip = some q ↔
        (strip = 0 ∨ (strings.Split q '/').length ≤ strip)) := by
  have hkey := strippedPath_eq pathNew strip
  obtain ⟨q, hq⟩ : ∃ q : GoString, q =
      (if (strings.Split pathNew '/').length > strip
        then filepath.Join ((strings.Split pathNew '/').drop strip)
        else pathNew) := ⟨_, rfl⟩
  rw [← hq] at hkey
  refine ⟨q, hkey, ?_⟩
  constructor
  · intro h
    by_contra hcon
    have hpos : 0 < strip := by omega
    have hlt : strip < (strings.Split q '/').length := by omega
    rw [strippedPath_eq, if_pos hlt] at h
    have heq := Option.some.inj h
    have hc1 := filepath.count_Join_le ((strings.Split q '/').drop strip) (fun seg hseg =>
      strings.not_mem_of_mem_Split q '/' seg (List.mem_of_mem_drop hseg))
    have hc2 := strings.count_eq_length_Split q '/'
    rw [heq, List.length_drop] at hc1
    omega
  · rintro (h0 | hle)
    · subst h0
      have hpos := strings.Split_length_pos pathNew '/'
      rw [if_pos hpos, List.drop_zero] at hq
      rw [strippedPath_eq, if_pos (strings.Split_length_pos _ '/'), List.drop_zero, hq,
        filepath.Join_Split_Join _ (strings.not_mem_of_mem_Split pathNew '/')]
    · rw [strippedPath_eq, if_neg (by omega)]

end watchdogs

/-! ## C11, C12: collisions and the order of the file diffs -/

theorem find?_perm_of_unique {α : Type} (q : α → Bool) (l l2 : List α) (hp : l.Perm l2)
    (hu : ∀ a ∈ l, ∀ b ∈ l, q a = true → q b = true → a = b) :
    l.find? q = l2.find? q := by
  cases h : l.find? q with
  | none =>
    cases h2 : l2.find? q with
    | none => rfl
    | some b =>
      have hb := List.find?_some h2
      have hmem := hp.mem_iff.mpr (List.mem_of_find?_eq_some h2)
      exact absurd hb (by simpa using List.find?_eq_none.mp h b hmem)
  | some a =>
    have ha := List.find?_some h
    have hma := List.mem_of_find?_eq_some h
    cases h2 : l2.find? q with
    | none =>
      exact absurd ha (by simpa using List.find?_eq_none.mp h2 a (hp.mem_iff.mp hma))
    | some b =>
      have hb := List.find?_some h2
      have hmb := hp.mem_iff.mpr (List.mem_of_find?_eq_some h2)
      rw [hu a hma b hmb ha hb]

namespace watchdogs

open diff

/-- C11, as stated, fails.  In `threeFiles` the added lines (10, 5, "x") of the
first file diff and (10, 6, "y") of the second have the same path `f.go` with
strip count 1 and the same new-file line number, yet `Get` at (`f.go`, 10)
returns not-found and not the record of the later one: the third file diff,
indexed under `f.go` too, has replaced the whole entry. -/
theorem later_overwrites_counterexample :
    added 10 5 "x" ∈ allLines leftFile ∧ added 10 6 "y" ∈ allLines midFile ∧
    strippedPath leftFile.PathNew 1 = some "f.go".toList ∧
    strippedPath midFile.PathNew 1 = some "f.go".toList ∧
    strippedPath rightFile.PathNew 1 = some "f.go".toList ∧
    (AddedLines threeFiles 1).map (fun idx => idx.Get "f.go".toList 10) = some none := by
  decide

/-- C11, amended: when two added lines have the same normalized path and the
same new-file line number, and the later one in traversal order (file diffs in
order, then hunks, then lines) is followed by no added line with that number in
its file diff and by no file diff with that normalized path, `Get` at that path
and line number returns the record built from the later one; the table holds
one record for the key, with the diff line number and content of the later
line. -/
theorem later_overwrites (strip : Nat) (pre post : List FileDiff) (filediff : FileDiff)
    (lpre lpost : List Line) (earlier later : Line)
    (hall : allLines filediff = lpre ++ later :: lpost)
    (hlater : later.Typ = LineType.LineAdded)
    (hearlier : earlier.Typ = LineType.LineAdded ∧ earlier.LnumNew = later.LnumNew)
    (_hwhere : earlier ∈ lpre ∨ ∃ g ∈ pre,
      strippedPath g.PathNew strip = strippedPath filediff.PathNew strip ∧
      earlier ∈ allLines g)
    (hlast : ∀ l2 ∈ lpost, ¬ (l2.Typ = LineType.LineAdded ∧ l2.LnumNew = later.LnumNew))
    (hfiles : ∀ g ∈ post, strippedPath g.PathNew strip ≠ strippedPath filediff.PathNew strip) :
    ∃ (idx : PosToAddedLine) (key : GoString),
      AddedLines (pre ++ filediff :: post) strip = some idx ∧
      strippedPath filediff.PathNew strip = some key ∧
      idx.Get key later.LnumNew =
        some { Path := key, Lnum := later.LnumNew, LnumDiff := later.LnumDiff,
               Content := later.Content } ∧
      (∀ r : AddedLine, idx.Get key earlier.LnumNew = some r →
        r.LnumDiff = later.LnumDiff ∧ r.Content = later.Content) := by
  obtain ⟨idx, hidx, hget⟩ := Get_AddedLines (pre ++ filediff :: post) strip
  obtain ⟨key, hkey⟩ : ∃ key, strippedPath filediff.PathNew strip = some key :=
    ⟨_, strippedPath_eq _ _⟩
  have hfile : (pre ++ filediff :: post).reverse.find? (hasPath strip key) = some filediff := by
    apply find?_reverse_append_cons
    · simp [hasPath, hkey]
    · intro g hg
      have := hfiles g hg
      simp only [hasPath, decide_eq_false_iff_not]
      rw [hkey] at this
      exact this
  have hline : (allLines filediff).reverse.find? (addedAt later.LnumNew) = some later := by
    rw [hall]
    apply find?_reverse_append_cons
    · simp [addedAt, hlater]
    · intro l2 hl2
      simp only [addedAt, decide_eq_false_iff_not]
      exact hlast l2 hl2
  have hfound : idx.Get key later.LnumNew = some (recordOf key later) := by
    rw [hget, hfile]
    simp [hline]
  refine ⟨idx, key, hidx, hkey, hfound, fun r hr => ?_⟩
  rw [hearlier.2, hfound] at hr
  rw [← Option.some.inj hr]
  exact ⟨rfl, rfl⟩

/-- The amended C11 at the two added lines numbered 10 of `twiceFile`. -/
theorem later_overwrites_witness :
    ∃ (idx : PosToAddedLine) (key : GoString),
      AddedLines ([] ++ twiceFile :: []) 0 = some idx ∧
      strippedPath twiceFile.PathNew 0 = some key ∧
      idx.Get key (added 10 6 "y").LnumNew =
        some { Path := key, Lnum := (added 10 6 "y").LnumNew,
               LnumDiff := (added 10 6 "y").LnumDiff, Content := (added 10 6 "y").Content } ∧
      (∀ r : AddedLine, idx.Get key (added 10 5 "x").LnumNew = some r →
        r.LnumDiff = (added 10 6 "y").LnumDiff ∧ r.Content = (added 10 6 "y").Content) :=
  later_overwrites 0 [] [] twiceFile [added 10 5 "x"] [] (added 10 5 "x") (added 10 6 "y")
    rfl rfl ⟨rfl, rfl⟩ (Or.inl (by simp)) (by simp) (by simp)

/-- C12, as stated, fails.  `[rightFile, leftFile]` is a permutation of
`samePath = [leftFile, rightFile]`; with strip count 1 both file diffs are
indexed under `f.go`, and `Get` at (`f.go`, 10) is not-found on the table of
`samePath` and found on the table of the permutation. -/
theorem order_counterexample :
    samePath.Perm [rightFile, leftFile] ∧
    (AddedLines samePath 1).map (fun idx => idx.Get "f.go".toList 10) = some none ∧
    (AddedLines [rightFile, leftFile] 1).bind (fun idx => idx.Get "f.go".toList 10) =
      some { Path := "f.go".toList, Lnum := 10, LnumDiff := 5, Content := "x".toList } :=
  ⟨List.Perm.swap _ _ _, by decide, by decide⟩

/-- C12, amended: for a list of file diffs whose normalized paths are pairwise
distinct, every permutation of the list and every strip count, the tables built
from the list and from the permutation return the same result from `Get` for
every path and line number. -/
theorem order_insensitive (filediffs permuted : List FileDiff) (strip : Nat)
    (hperm : filediffs.Perm permuted)
    (hnodup : (filediffs.map (fun filediff => strippedPath filediff.PathNew strip)).Nodup) :
    ∃ (idx idx2 : PosToAddedLine),
      AddedLines filediffs strip = some idx ∧ AddedLines permuted strip = some idx2 ∧
      ∀ (path : GoString) (lnum : Int), idx.Get path lnum = idx2.Get path lnum := by
  obtain ⟨idx, hidx, hget⟩ := Get_AddedLines filediffs strip
  obtain ⟨idx2, hidx2, hget2⟩ := Get_AddedLines permuted strip
  refine ⟨idx, idx2, hidx, hidx2, fun path lnum => ?_⟩
  have hfind : filediffs.reverse.find? (hasPath strip path) =
      permuted.reverse.find? (hasPath strip path) := by
    apply find?_perm_of_unique
    · exact (List.reverse_perm filediffs).trans (hperm.trans (List.reverse_perm permuted).symm)
    · intro a ha b hb hqa hqb
      have hinj := List.inj_on_of_nodup_map hnodup
      apply hinj (List.mem_reverse.mp ha) (List.mem_reverse.mp hb)
      simp only [hasPath, decide_eq_true_eq] at hqa hqb
      rw [hqa, hqb]
  rw [hget, hget2, hfind]

/-- The amended C12 at two file diffs with distinct normalized paths. -/
theorem order_insensitive_witness :
    ∃ (idx idx2 : PosToAddedLine),
      AddedLines [fooFile, leftFile] 1 = some idx ∧
      AddedLines [leftFile, fooFile] 1 = some idx2 ∧
      ∀ (path : GoString) (lnum : Int), idx.Get path lnum = idx2.Get path lnum :=
  order_insensitive [fooFile, leftFile] [leftFile, fooFile] 1 (List.Perm.swap _ _ _)
    (by decide)

end watchdogs

/-! ## C13, C14: the scenarios on `a/pkg/foo.go` -/

namespace watchdogs

open diff

/-- The table of `[fooFile]` with strip count 0. -/
theorem AddedLines_fooFile_zero :
    AddedLines [fooFile] 0 =
      some (GoMap.set GoMap.empty "a/pkg/foo.go".toList
        (fileLines "a/pkg/foo.go".toList fooFile)) := rfl

/-- C13, scenario A: on the diff `[fooFile]` with strip count 1 and the single
finding at `pkg/foo.go`, line 10, with message `unused variable x`, `Run` posts
exactly one comment, with that message, path `pkg/foo.go`, line 10 and diff
line 5, and returns `nil`. -/
theorem scenario_A (ParseMultiFile : GoString → Except Error (List FileDiff))
    (w : Watchdogs) (r : GoString) (result : CheckResult) (d : GoString)
    (hparse : w.p r = Except.ok [result]) (hdiff : w.c.Diff [] = Except.ok d)
    (hpmf : ParseMultiFile d = Except.ok [fooFile]) (hstrip : w.strip = 1)
    (hpath : result.Path = "pkg/foo.go".toList) (hlnum : result.Lnum = 10)
    (hmsg : result.Message = "unused variable x".toList)
    (hsink : ∀ comment : Comment, w.c.Post [Call.Diff] comment = none) :
    w.Run ParseMultiFile r =
      some
        { calls := [Call.Diff,
            Call.Post { Body := "unused variable x".toList, Path := "pkg/foo.go".toList,
                        Lnum := 10, LnumDiff := 5 }],
          err := none } := by
  have hidx : AddedLines [fooFile] w.strip = some fooIndex := by
    rw [hstrip]; exact AddedLines_fooFile
  have hget : fooIndex.Get result.Path result.Lnum =
      some { Path := "pkg/foo.go".toList, Lnum := 10, LnumDiff := 5,
             Content := "x := 1".toList } := by
    rw [hpath, hlnum]; decide
  rw [Run_of_stages ParseMultiFile w r [result] d [fooFile] fooIndex hparse hdiff hpmf hidx]
  simp only [postResults, hget, hsink, hmsg, List.singleton_append]

/-- C13 at a parser that returns the finding and a sink that never fails. -/
theorem scenario_A_witness :
    (dog [finding "pkg/foo.go" 10 "unused variable x"] quietService 1).Run parseFoo [] =
      some
        { calls := [Call.Diff,
            Call.Post { Body := "unused variable x".toList, Path := "pkg/foo.go".toList,
                        Lnum := 10, LnumDiff := 5 }],
          err := none } :=
  scenario_A parseFoo (dog [finding "pkg/foo.go" 10 "unused variable x"] quietService 1) []
    (finding "pkg/foo.go" 10 "unused variable x") "diff".toList rfl rfl rfl rfl rfl rfl rfl
    (fun _ => rfl)

/-- C14, scenario C: with strip count 0 the file diff of `a/pkg/foo.go` is
indexed under `a/pkg/foo.go`; `Get` finds line 10 under `a/pkg/foo.go` and
does not find it under `pkg/foo.go`; `Run` on a finding at `pkg/foo.go`,
line 10, posts no comment and returns `nil`, whatever the sink would do, while
a finding that reports `a/pkg/foo.go` is posted: the path of a finding is
looked up as it is. -/
theorem scenario_C (ParseMultiFile : GoString → Except Error (List FileDiff))
    (w : Watchdogs) (r : GoString) (result : CheckResult) (d : GoString)
    (hparse : w.p r = Except.ok [result]) (hdiff : w.c.Diff [] = Except.ok d)
    (hpmf : ParseMultiFile d = Except.ok [fooFile]) (hstrip : w.strip = 0)
    (hlnum : result.Lnum = 10) :
    strippedPath fooFile.PathNew 0 = some "a/pkg/foo.go".toList ∧
    (∃ idx : PosToAddedLine, AddedLines [fooFile] 0 = some idx ∧
      idx.Get "a/pkg/foo.go".toList 10 =
        some { Path := "a/pkg/foo.go".toList, Lnum := 10, LnumDiff := 5,
               Content := "x := 1".toList } ∧
      idx.Get "pkg/foo.go".toList 10 = none) ∧
    (result.Path = "pkg/foo.go".toList →
      w.Run ParseMultiFile r = some { calls := [Call.Diff], err := none }) ∧
    (result.Path = "a/pkg/foo.go".toList →
      (∀ comment : Comment, w.c.Post [Call.Diff] comment = none) →
      w.Run ParseMultiFile r =
        some
          { calls := [Call.Diff,
              Call.Post { Body := result.Message, Path := "a/pkg/foo.go".toList,
                          Lnum := 10, LnumDiff := 5 }],
            err := none }) := by
  have hidx : AddedLines [fooFile] w.strip =
      some (GoMap.set GoMap.empty "a/pkg/foo.go".toList
        (fileLines "a/pkg/foo.go".toList fooFile)) := by
    rw [hstrip]; exact AddedLines_fooFile_zero
  have hrun := Run_of_stages ParseMultiFile w r [result] d [fooFile] _ hparse hdiff hpmf hidx
  refine ⟨by decide, ⟨_, AddedLines_fooFile_zero, by decide, by decide⟩, ?_, ?_⟩
  · intro hpath
    have hget : PosToAddedLine.Get (GoMap.set GoMap.empty "a/pkg/foo.go".toList
        (fileLines "a/pkg/foo.go".toList fooFile)) result.Path result.Lnum = none := by
      rw [hpath, hlnum]; decide
    rw [hrun]
    simp only [postResults, hget]
  · intro hpath hsink
    have hget : PosToAddedLine.Get (GoMap.set GoMap.empty "a/pkg/foo.go".toList
        (fileLines "a/pkg/foo.go".toList fooFile)) result.Path result.Lnum =
        some { Path := "a/pkg/foo.go".toList, Lnum := 10, LnumDiff := 5,
               Content := "x := 1".toList } := by
      rw [hpath, hlnum]; decide
    rw [hrun]
    simp only [postResults, hget, hsink, List.singleton_append]

/-- C14 at a finding that reports `pkg/foo.go`, with a sink that would fail on
its first call: no comment is posted. -/
theorem scenario_C_witness :
    (dog [finding "pkg/foo.go" 10 "unused variable x"] (failingService 1) 0).Run parseFoo [] =
      some { calls := [Call.Diff], err := none } :=
  (scenario_C parseFoo (dog [finding "pkg/foo.go" 10 "unused variable x"] (failingService 1) 0)
    [] (finding "pkg/foo.go" 10 "unused variable x") "diff".toList rfl rfl rfl rfl rfl).2.2.1
    rfl

end watchdogs

/-! ## C15, C16: no panic, and the key of a record -/

namespace watchdogs

open diff

/-- C15: for every strip count and every list of file diffs `AddedLines`
returns a table: the slice `ps[strip:]` is taken only when there are more than
`strip` elements, where it is in range, a path with at most `strip` elements
is kept without slicing, and the empty list gives the empty table.  The slice
expression by itself does fail beyond the length. -/
theorem no_error_in_build (filediffs : List FileDiff) (strip : Nat) :
    (∃ idx : PosToAddedLine, AddedLines filediffs strip = some idx) ∧
    (∀ pathNew : GoString, ∃ key : GoString, strippedPath pathNew strip = some key) ∧
    (∀ pathNew : GoString, strip < (strings.Split pathNew '/').length →
      sliceFrom (strings.Split pathNew '/') strip =
        some ((strings.Split pathNew '/').drop strip)) ∧
    (∀ pathNew : GoString, (strings.Split pathNew '/').length ≤ strip →
      strippedPath pathNew strip = some pathNew) ∧
    (∃ idx : PosToAddedLine, AddedLines [] strip = some idx ∧
      ∀ (path : GoString) (lnum : Int), idx.Get path lnum = none) ∧
    (∀ (ps : List GoString) (low : Nat), sliceFrom ps low = none ↔ ps.length < low) := by
  refine ⟨?_, fun pathNew => ⟨_, strippedPath_eq pathNew strip⟩, fun pathNew h => ?_,
    fun pathNew h => ?_, ⟨GoMap.empty, rfl, fun path lnum => rfl⟩, fun ps low => ?_⟩
  · obtain ⟨idx, hidx, _⟩ := AddedLines_eq filediffs strip
    exact ⟨idx, hidx⟩
  · exact sliceFrom_of_le _ _ (Nat.le_of_lt h)
  · rw [strippedPath_eq, if_neg (by omega)]
  · unfold sliceFrom
    by_cases h : low ≤ ps.length
    · simp [h]
    · simp only [h, if_false, true_iff]
      omega

theorem postResults_calls (c : CommentService) (idx : PosToAddedLine)
    (results : List CheckResult) (calls : List Call) :
    ∃ k : Nat, (postResults c idx results calls).calls =
      calls ++ ((matchedComments idx results).take k).map Call.Post := by
  induction results generalizing calls with
  | nil => exact ⟨0, by simp [postResults]⟩
  | cons result rest ih =>
    unfold postResults
    cases hg : idx.Get result.Path result.Lnum with
    | none =>
      rw [matchedComments_cons_none idx result rest hg]
      exact ih calls
    | some a =>
      rw [matchedComments_cons_some idx result rest a hg]
      simp only
      cases hp : c.Post calls
          { Body := result.Message, Path := a.Path, Lnum := a.Lnum, LnumDiff := a.LnumDiff } with
      | some e => exact ⟨1, by simp [commentOf]⟩
      | none =>
        obtain ⟨k, hk⟩ := ih (calls ++ [Call.Post
          { Body := result.Message, Path := a.Path, Lnum := a.Lnum, LnumDiff := a.LnumDiff }])
        exact ⟨k + 1, by simp [hk, commentOf]⟩

theorem mem_matchedComments (idx : PosToAddedLine) (results : List CheckResult)
    (comment : Comment) (h : comment ∈ matchedComments idx results) :
    ∃ result ∈ results, ∃ a : AddedLine,
      idx.Get result.Path result.Lnum = some a ∧ comment = commentOf result a := by
  unfold matchedComments at h
  obtain ⟨result, hmem, hres⟩ := List.mem_filterMap.mp h
  cases hg : idx.Get result.Path result.Lnum with
  | none => simp [hg] at hres
  | some a =>
    simp only [hg, Option.map_some', Option.some.injEq] at hres
    exact ⟨result, hmem, a, hg, hres.symm⟩

theorem Get_key (filediffs : List FileDiff) (strip : Nat) :
    ∃ idx : PosToAddedLine, AddedLines filediffs strip = some idx ∧
      ∀ (path : GoString) (lnum : Int) (r : AddedLine), idx.Get path lnum = some r →
        r.Path = path ∧ r.Lnum = lnum := by
  obtain ⟨idx, hidx, hget⟩ := Get_AddedLines filediffs strip
  refine ⟨idx, hidx, fun path lnum r hr => ?_⟩
  rw [hget] at hr
  cases hf : filediffs.reverse.find? (hasPath strip path) with
  | none => simp [hf] at hr
  | some g =>
    simp only [hf, Option.some_bind] at hr
    cases hl : (allLines g).reverse.find? (addedAt lnum) with
    | none => simp [hl] at hr
    | some line =>
      have hprop : line.Typ = LineType.LineAdded ∧ line.LnumNew = lnum := by
        have := List.find?_some hl
        simpa [addedAt] using this
      simp only [hl, Option.map_some', Option.some.injEq] at hr
      rw [← hr]
      exact ⟨rfl, hprop.2⟩

/-- C16: a record that `Get` finds in the table of `AddedLines` under a path
and a line number has that path and that line number; so every comment that
`Run` posts has the message, the path and the line number of one of the
findings. -/
theorem key_record_consistency :
    (∀ (filediffs : List FileDiff) (strip : Nat),
      ∃ idx : PosToAddedLine, AddedLines filediffs strip = some idx ∧
        ∀ (path : GoString) (lnum : Int) (r : AddedLine), idx.Get path lnum = some r →
          r.Path = path ∧ r.Lnum = lnum) ∧
    (∀ (ParseMultiFile : GoString → Except Error (List FileDiff)) (w : Watchdogs)
      (r : GoString) (results : List CheckResult) (d : GoString) (filediffs : List FileDiff),
      w.p r = Except.ok results → w.c.Diff [] = Except.ok d →
      ParseMultiFile d = Except.ok filediffs →
      ∃ res : RunResult, w.Run ParseMultiFile r = some res ∧
        ∀ comment : Comment, Call.Post comment ∈ res.calls →
          ∃ result ∈ results, comment.Body = result.Message ∧
            comment.Path = result.Path ∧ comment.Lnum = result.Lnum) := by
  refine ⟨Get_key, fun ParseMultiFile w r results d filediffs hparse hdiff hpmf => ?_⟩
  obtain ⟨idx, hidx, hkey⟩ := Get_key filediffs w.strip
  refine ⟨_, Run_of_stages ParseMultiFile w r results d filediffs idx hparse hdiff hpmf hidx,
    fun comment hc => ?_⟩
  obtain ⟨k, hk⟩ := postResults_calls w.c idx results [Call.Diff]
  rw [hk] at hc
  have hin : comment ∈ matchedComments idx results := by
    simp only [List.singleton_append, List.mem_cons, List.mem_map, Call.Post.injEq,
      exists_eq_right, false_or] at hc
    rcases hc with hc | hc
    · cases hc
    · exact List.mem_of_mem_take hc
  obtain ⟨result, hmem, a, hget, hcm⟩ := mem_matchedComments idx results comment hin
  have := hkey result.Path result.Lnum a hget
  refine ⟨result, hmem, ?_, ?_, ?_⟩
  · rw [hcm]; rfl
  · rw [hcm]; exact this.1
  · rw [hcm]; exact this.2

end watchdogs

/-! ## C17, C18: replacement of a whole entry, and strip count 0 -/

namespace watchdogs

open diff

/-- C17: `Get` on the table of `AddedLines` returns the record of the last
added line with the queried line number inside the last file diff whose
normalized path is the queried path, and not-found when there is no such file
diff or no such line in it.  So when several file diffs have the same
normalized path the table holds the added lines of the last of them only: a
line number that it does not add is not-found, also when an earlier file diff
with that path adds it. -/
theorem whole_file_replacement (filediffs : List FileDiff) (strip : Nat) :
    ∃ idx : PosToAddedLine, AddedLines filediffs strip = some idx ∧
      (∀ (path : GoString) (lnum : Int), idx.Get path lnum =
        (filediffs.reverse.find? (hasPath strip path)).bind (fun filediff =>
          ((allLines filediff).reverse.find? (addedAt lnum)).map (recordOf path))) ∧
      (∀ (pre post : List FileDiff) (filediff : FileDiff) (path : GoString),
        filediffs = pre ++ filediff :: post →
        strippedPath filediff.PathNew strip = some path →
        (∀ g ∈ post, strippedPath g.PathNew strip ≠ some path) →
        (∀ lnum : Int, idx.Get path lnum =
          ((allLines filediff).reverse.find? (addedAt lnum)).map (recordOf path)) ∧
        (∀ lnum : Int,
          (∀ line ∈ allLines filediff,
            ¬ (line.Typ = LineType.LineAdded ∧ line.LnumNew = lnum)) →
          idx.Get path lnum = none)) := by
  obtain ⟨idx, hidx, hget⟩ := Get_AddedLines filediffs strip
  refine ⟨idx, hidx, hget, fun pre post filediff path hsplit hpath hpost => ?_⟩
  have hfile : filediffs.reverse.find? (hasPath strip path) = some filediff := by
    rw [hsplit]
    apply find?_reverse_append_cons
    · simp [hasPath, hpath]
    · intro g hg
      simp only [hasPath, decide_eq_false_iff_not]
      exact hpost g hg
  have hlast : ∀ lnum : Int, idx.Get path lnum =
      ((allLines filediff).reverse.find? (addedAt lnum)).map (recordOf path) := by
    intro lnum
    rw [hget, hfile]
    rfl
  refine ⟨hlast, fun lnum hnone => ?_⟩
  rw [hlast]
  have : (allLines filediff).reverse.find? (addedAt lnum) = none := by
    apply List.find?_eq_none.mpr
    intro line hline
    have := hnone line (List.mem_reverse.mp hline)
    simpa [addedAt] using this
  rw [this]
  rfl

/-- C17 at `samePath` with strip count 1: line 10, added by the first file diff
only, is not-found under `f.go`, and line 20 of the last file diff is found. -/
theorem whole_file_replacement_witness :
    (AddedLines samePath 1).map (fun idx => idx.Get "f.go".toList 10) = some none ∧
    (AddedLines samePath 1).bind (fun idx => idx.Get "f.go".toList 20) =
      some { Path := "f.go".toList, Lnum := 20, LnumDiff := 7, Content := "z".toList } := by
  obtain ⟨idx, hidx, _, hlast⟩ := whole_file_replacement samePath 1
  have h := hlast [leftFile] [] rightFile "f.go".toList rfl (by decide) (by simp)
  rw [hidx]
  refine ⟨?_, ?_⟩
  · simp only [Option.map_some', Option.some.injEq]
    exact h.2 10 (by decide)
  · simp only [Option.some_bind]
    rw [h.1 20]
    decide

theorem indexed_under_key (filediffs : List FileDiff) (filediff : FileDiff) (strip : Nat)
    (idx : PosToAddedLine) (key : GoString) (hmem : filediff ∈ filediffs)
    (hidx : AddedLines filediffs strip = some idx)
    (hkey : strippedPath filediff.PathNew strip = some key) : (idx key).isSome = true := by
  obtain ⟨idx2, hidx2, hget⟩ := AddedLines_eq filediffs strip
  have hsame := Option.some.inj (hidx.symm.trans hidx2)
  subst hsame
  rw [hget]
  have : (filediffs.reverse.find? (hasPath strip key)).isSome = true :=
    List.find?_isSome.mpr ⟨filediff, List.mem_reverse.mpr hmem, by simp [hasPath, hkey]⟩
  cases hf : filediffs.reverse.find? (hasPath strip key) with
  | none => rw [hf] at this; exact absurd this (by simp)
  | some g => rfl

/-- C18, as stated, fails.  With strip count 0 the path `/abs/x.go`, whose
first element is empty, is indexed under `abs/x.go`, and nothing is found under
`/abs/x.go`; the paths `a//b.go`, `./b.go` and `a/../b.go`, with an empty
element, an element `.` and an element `..`, are indexed under `a/b.go`,
`b.go` and `b.go`. -/
theorem strip_zero_counterexample :
    strippedPath absFile.PathNew 0 = some "abs/x.go".toList ∧
    (AddedLines [absFile] 0).map (fun idx => idx.Get "/abs/x.go".toList 1) = some none ∧
    (AddedLines [absFile] 0).bind (fun idx => idx.Get "abs/x.go".toList 1) =
      some { Path := "abs/x.go".toList, Lnum := 1, LnumDiff := 4,
             Content := "package x".toList } ∧
    strippedPath "a//b.go".toList 0 = some "a/b.go".toList ∧
    strippedPath "./b.go".toList 0 = some "b.go".toList ∧
    strippedPath "a/../b.go".toList 0 = some "b.go".toList := by
  decide

/-- C18, amended: with strip count 0 a file diff is indexed under
`filepath.Join` of the elements of its new-file path; that is the path exactly
as given when the path has a single element, and when none of its elements is
empty, `.` or `..`. -/
theorem strip_zero (filediffs : List FileDiff) (filediff : FileDiff)
    (hmem : filediff ∈ filediffs) :
    ∃ (idx : PosToAddedLine) (key : GoString),
      AddedLines filediffs 0 = some idx ∧
      strippedPath filediff.PathNew 0 = some key ∧
      (idx key).isSome = true ∧
      key = filepath.Join (strings.Split filediff.PathNew '/') ∧
      ((strings.Split filediff.PathNew '/').length = 1 → key = filediff.PathNew) ∧
      ((∀ seg ∈ strings.Split filediff.PathNew '/',
          seg ≠ [] ∧ seg ≠ ['.'] ∧ seg ≠ ['.', '.']) → key = filediff.PathNew) := by
  obtain ⟨idx, hidx, _⟩ := AddedLines_eq filediffs 0
  have hkey : strippedPath filediff.PathNew 0 =
      some (filepath.Join (strings.Split filediff.PathNew '/')) := by
    rw [strippedPath_eq, if_pos (strings.Split_length_pos _ '/'), List.drop_zero]
  refine ⟨idx, _, hidx, hkey,
    indexed_under_key filediffs filediff 0 idx _ hmem hidx hkey, rfl, fun hone => ?_,
    fun hplain => ?_⟩
  · obtain ⟨seg, hseg⟩ := List.length_eq_one.mp hone
    have hsf : '/' ∉ seg :=
      strings.not_mem_of_mem_Split filediff.PathNew '/' seg (by rw [hseg]; simp)
    have hp := strings.Join_Split filediff.PathNew '/'
    rw [hseg] at hp ⊢
    rw [filepath.Join_singleton seg hsf]
    exact hp
  · have hsf := strings.not_mem_of_mem_Split filediff.PathNew '/'
    rw [filepath.Join_of_okStack _ (strings.Split_ne_nil _ '/')
      (filepath.okStack_of_plain _ (fun seg hseg =>
        have hm := List.mem_reverse.mp hseg
        ⟨(hplain seg hm).1, (hplain seg hm).2.1, (hplain seg hm).2.2, hsf seg hm⟩))]
    exact strings.Join_Split filediff.PathNew '/'

/-- The amended C18 at the file diff of `a/pkg/foo.go`, which keeps its path. -/
theorem strip_zero_witness :
    ∃ (idx : PosToAddedLine), AddedLines [fooFile] 0 = some idx ∧
      strippedPath fooFile.PathNew 0 = some fooFile.PathNew ∧
      (idx fooFile.PathNew).isSome = true := by
  obtain ⟨idx, key, hidx, hkey, hsome, _, _, hplain⟩ := strip_zero [fooFile] fooFile (by simp)
  have hk : key = fooFile.PathNew := hplain (by decide)
  subst hk
  exact ⟨idx, hidx, hkey, hsome⟩

end watchdogs
